import Mathlib

set_option maxHeartbeats 4000000
set_option maxRecDepth 100000

/-!
# A verification development of the `cchistory` JSONL stream parser

This file gives a shallow embedding, in Lean 4, of the streaming
log-to-command reconstruction engine of `src/jsonl-stream-parser.ts`,
and settles the specification's claims about it.

Modelling conventions, chosen once and used throughout:

* JavaScript strings are Lean `String`s (lists of characters); machine
  details of UTF-16 (lone surrogates) are out of scope — no claim touches
  them.
* `JSON.parse` is modelled by an executable recursive-descent function
  `jsonParse` over the JSON grammar (objects, arrays, strings with all
  escape forms including `\uXXXX`, numbers, literals).  JSON numbers are
  kept as their lexemes — no claim observes numeric values beyond JS
  truthiness, which is computable from the lexeme.
* JavaScript exceptions (`TypeError` from property access on `null`,
  calling `.find` on a non-array, …) are modelled with `Except Unit`;
  `processEntry`'s `try/catch` turns a thrown step into a diagnostic while
  keeping the effects of the steps already run, exactly as a caught
  exception does in a generator.
* The `Map` of pending commands is an association list with JavaScript
  `Map` semantics: insertion order is preserved, `set` on an existing key
  updates in place, `delete` removes the single matching entry,
  `values()` iterates in insertion order.  Key equality is structural;
  every identifier a claim mentions is a string, where this coincides
  with the `SameValueZero` rule JavaScript `Map`s use.
* `new Date(...)` timestamps are carried opaquely (`Option JsonValue`,
  `none` standing for "now"); no claim observes time values.
* The error channel (`console.error`) is modelled as a list of the line
  numbers reported; claims only count diagnostics.
-/

/-! ## Character classes -/

/-- JSON's interelement whitespace: space, tab, line feed, carriage return. -/
def isJsonWs (c : Char) : Bool :=
  c = ' ' || c = '\t' || c = '\n' || c = '\r'

/-- The WhiteSpace and LineTerminator characters that JavaScript
`String.prototype.trim` removes, by code point. -/
def isJsWs (c : Char) : Bool :=
  let n := c.toNat
  n = 0x20 || n = 0x09 || n = 0x0a || n = 0x0d || n = 0x0b || n = 0x0c ||
  n = 0xa0 || n = 0x1680 || (0x2000 <= n && n <= 0x200a) ||
  n = 0x2028 || n = 0x2029 || n = 0x202f || n = 0x205f ||
  n = 0x3000 || n = 0xfeff

/-- JavaScript regular-expression line terminators, which the regex dot
does not match. -/
def isLineTerm (c : Char) : Bool :=
  let n := c.toNat
  n = 0x0a || n = 0x0d || n = 0x2028 || n = 0x2029

/-! ## Substring search (JavaScript `String.prototype.includes`) -/

/-- `begMatch pat l` is true when `pat` is an initial segment of `l`. -/
def begMatch : List Char → List Char → Bool
  | [], _ => true
  | _ :: _, [] => false
  | p :: ps, c :: cs => p = c && begMatch ps cs

/-- `hasSub pat l` is true when `pat` occurs contiguously inside `l`. -/
def hasSub (pat : List Char) : List Char → Bool
  | [] => pat.isEmpty
  | c :: cs => begMatch pat (c :: cs) || hasSub pat cs

/-- `line.includes(sub)` on JavaScript strings. -/
def jsIncludes (line sub : String) : Bool :=
  hasSub sub.data line.data

/-! ## Command-text normalization (`normalizeBashCommand`) -/

/-- JavaScript `s.split('\n')` on the character list: every occurrence of
`'\n'` separates, empty pieces are kept, and the empty string yields one
empty piece. -/
def splitNl : List Char → List (List Char)
  | [] => [[]]
  | c :: cs =>
    match splitNl cs with
    | [] => [[c]]
    | h :: r => if c = '\n' then [] :: h :: r else (c :: h) :: r

/-- JavaScript `s.trim()` on the character list. -/
def jsTrim (l : List Char) : List Char :=
  ((l.dropWhile isJsWs).reverse.dropWhile isJsWs).reverse

/-- Join pieces with the two-character separator `\n` (backslash, letter n),
as `.join('\\n')` does. -/
def joinBsN : List (List Char) → List Char
  | [] => []
  | [x] => x
  | x :: y :: r => x ++ '\\' :: 'n' :: joinBsN (y :: r)

/-- `normalizeBashCommand` from the source: split on line breaks, trim each
line, drop empty lines, rejoin with the literal two-character `\n`. -/
def normalizeBashCommand (s : String) : String :=
  ⟨joinBsN (((splitNl s.data).map jsTrim).filter (fun l => !l.isEmpty))⟩

/-! ## JSON values

`JSON.parse` results.  Numbers are kept as their lexemes: no claim observes
a numeric value beyond JavaScript truthiness, which the lexeme determines. -/

inductive JsonValue where
  | null : JsonValue
  | bool (b : Bool) : JsonValue
  | str (s : String) : JsonValue
  | num (lexeme : String) : JsonValue
  | arr (elems : List JsonValue) : JsonValue
  | obj (fields : List (String × JsonValue)) : JsonValue

/-! Structural equality of JSON values; on the strings used as tool-use
identifiers this coincides with the `SameValueZero` equality of
JavaScript `Map` keys. -/

mutual

def jsonEq : JsonValue → JsonValue → Bool
  | .null, .null => true
  | .bool a, .bool b => a == b
  | .str a, .str b => a == b
  | .num a, .num b => a == b
  | .arr a, .arr b => jsonEqList a b
  | .obj a, .obj b => jsonEqFields a b
  | _, _ => false

def jsonEqList : List JsonValue → List JsonValue → Bool
  | [], [] => true
  | a :: as, b :: bs => jsonEq a b && jsonEqList as bs
  | _, _ => false

def jsonEqFields : List (String × JsonValue) → List (String × JsonValue) → Bool
  | [], [] => true
  | (k1, v1) :: r1, (k2, v2) :: r2 => k1 == k2 && jsonEq v1 v2 && jsonEqFields r1 r2
  | _, _ => false

end

/-! All string literals occurring in a JSON value (string leaves and object
keys); a parsed value's strings all occur quoted in its source text. -/

mutual

def stringsOf : JsonValue → List String
  | .null => []
  | .bool _ => []
  | .str s => [s]
  | .num _ => []
  | .arr l => stringsOfList l
  | .obj fs => stringsOfFields fs

def stringsOfList : List JsonValue → List String
  | [] => []
  | v :: r => stringsOf v ++ stringsOfList r

def stringsOfFields : List (String × JsonValue) → List String
  | [] => []
  | (k, v) :: r => k :: (stringsOf v ++ stringsOfFields r)

end

/-! ## The JSON text grammar (`JSON.parse`) -/

/-- Skip JSON interelement whitespace. -/
def skipWs (cs : List Char) : List Char := cs.dropWhile isJsonWs

/-- Value of one hexadecimal digit. -/
def hexVal? (c : Char) : Option Nat :=
  if '0' ≤ c && c ≤ '9' then some (c.toNat - 48)
  else if 'a' ≤ c && c ≤ 'f' then some (c.toNat - 87)
  else if 'A' ≤ c && c ≤ 'F' then some (c.toNat - 55)
  else none

/-- The single-character JSON string escapes. -/
def escChar? (c : Char) : Option Char :=
  if c = '"' then some '"'
  else if c = '\\' then some '\\'
  else if c = '/' then some '/'
  else if c = 'b' then some '\x08'
  else if c = 'f' then some '\x0c'
  else if c = 'n' then some '\n'
  else if c = 'r' then some '\r'
  else if c = 't' then some '\t'
  else none

/-- Parse the body of a JSON string literal (the opening quote already
consumed): returns the decoded characters and the text after the closing
quote.  Unescaped control characters are rejected, as `JSON.parse` does. -/
def parseStr : List Char → Option (List Char × List Char)
  | [] => none
  | c :: cs =>
    if c = '"' then some ([], cs)
    else if c = '\\' then
      match cs with
      | 'u' :: h1 :: h2 :: h3 :: h4 :: cs2 =>
        match hexVal? h1, hexVal? h2, hexVal? h3, hexVal? h4 with
        | some a, some b, some d, some e =>
          match parseStr cs2 with
          | some (s, r) => some (Char.ofNat (((a * 16 + b) * 16 + d) * 16 + e) :: s, r)
          | none => none
        | _, _, _, _ => none
      | e :: cs2 =>
        match escChar? e with
        | some ec =>
          match parseStr cs2 with
          | some (s, r) => some (ec :: s, r)
          | none => none
        | none => none
      | [] => none
    else if c.toNat < 32 then none
    else
      match parseStr cs with
      | some (s, r) => some (c :: s, r)
      | none => none

/-- The integer part of a JSON number: `0`, or a nonzero digit followed by
digits (leading zeros rejected, as in the JSON grammar). -/
def lexInt : List Char → Option (List Char × List Char)
  | [] => none
  | c :: cs =>
    if c = '0' then some (['0'], cs)
    else if c.isDigit then some (c :: cs.takeWhile Char.isDigit, cs.dropWhile Char.isDigit)
    else none

/-- The optional fraction part of a JSON number. -/
def lexFrac : List Char → Option (List Char × List Char)
  | '.' :: cs =>
    let ds := cs.takeWhile Char.isDigit
    if ds.isEmpty then none else some ('.' :: ds, cs.dropWhile Char.isDigit)
  | cs => some ([], cs)

/-- The optional exponent part of a JSON number. -/
def lexExp : List Char → Option (List Char × List Char)
  | [] => some ([], [])
  | c :: rest =>
    if c = 'e' || c = 'E' then
      let (sign, rest2) :=
        match rest with
        | s :: r2 => if s = '+' || s = '-' then ([s], r2) else (([] : List Char), rest)
        | [] => (([] : List Char), rest)
      let ds := rest2.takeWhile Char.isDigit
      if ds.isEmpty then none
      else some (c :: sign ++ ds, rest2.dropWhile Char.isDigit)
    else some ([], c :: rest)

/-- Lex a JSON number, returning its lexeme. -/
def lexNum (cs : List Char) : Option (List Char × List Char) :=
  match cs with
  | '-' :: cs2 =>
    (lexInt cs2).bind fun (i, r1) =>
      (lexFrac r1).bind fun (f, r2) =>
        (lexExp r2).map fun (e, r3) => ('-' :: (i ++ f ++ e), r3)
  | _ =>
    (lexInt cs).bind fun (i, r1) =>
      (lexFrac r1).bind fun (f, r2) =>
        (lexExp r2).map fun (e, r3) => (i ++ f ++ e, r3)

/-! Recursive-descent JSON value grammar, fuel-bounded.  `parseVal` skips
leading whitespace and dispatches on the first character; the loops for
object members and array elements carry the fields and elements parsed so
far. -/

mutual

def parseVal : Nat → List Char → Option (JsonValue × List Char)
  | 0, _ => none
  | Nat.succ f, cs =>
    match skipWs cs with
    | '\x7b' :: r => parseObjBody f (skipWs r)
    | '[' :: r => parseArrBody f (skipWs r)
    | '"' :: r =>
      match parseStr r with
      | some (s, r2) => some (.str ⟨s⟩, r2)
      | none => none
    | 't' :: 'r' :: 'u' :: 'e' :: r => some (.bool true, r)
    | 'f' :: 'a' :: 'l' :: 's' :: 'e' :: r => some (.bool false, r)
    | 'n' :: 'u' :: 'l' :: 'l' :: r => some (.null, r)
    | rest =>
      match lexNum rest with
      | some (lit, r) => some (.num ⟨lit⟩, r)
      | none => none

def parseObjBody : Nat → List Char → Option (JsonValue × List Char)
  | 0, _ => none
  | Nat.succ f, cs =>
    match cs with
    | '\x7d' :: r => some (.obj [], r)
    | _ => parseMembers f cs []

def parseMembers : Nat → List Char → List (String × JsonValue) →
    Option (JsonValue × List Char)
  | 0, _, _ => none
  | Nat.succ f, cs, acc =>
    match cs with
    | '"' :: r =>
      match parseStr r with
      | some (k, r1) =>
        match skipWs r1 with
        | ':' :: r2 =>
          match parseVal f r2 with
          | some (v, r3) =>
            match skipWs r3 with
            | ',' :: r4 => parseMembers f (skipWs r4) (acc ++ [(⟨k⟩, v)])
            | '\x7d' :: r4 => some (.obj (acc ++ [(⟨k⟩, v)]), r4)
            | _ => none
          | none => none
        | _ => none
      | none => none
    | _ => none

def parseArrBody : Nat → List Char → Option (JsonValue × List Char)
  | 0, _ => none
  | Nat.succ f, cs =>
    match cs with
    | ']' :: r => some (.arr [], r)
    | _ => parseElems f cs []

def parseElems : Nat → List Char → List JsonValue → Option (JsonValue × List Char)
  | 0, _, _ => none
  | Nat.succ f, cs, acc =>
    match parseVal f cs with
    | some (v, r) =>
      match skipWs r with
      | ',' :: r2 => parseElems f r2 (acc ++ [v])
      | ']' :: r2 => some (.arr (acc ++ [v]), r2)
      | _ => none
    | none => none

end

/-- `JSON.parse` on one line: parse a value and require only whitespace to
remain.  The fuel `3 * length + 4` dominates the recursion depth of any
input of that length. -/
def jsonParse (s : String) : Option JsonValue :=
  match parseVal (3 * s.data.length + 4) s.data with
  | some (v, rest) => if (skipWs rest).isEmpty then some v else none
  | none => none

/-- The quoted occurrence of a string literal in JSON source text. -/
def quotedStr (s : String) : List Char :=
  '"' :: s.data ++ ['"']

/-! ## Dynamic property access and truthiness -/

/-- Property access on a parsed object: with duplicate keys,
`JSON.parse` keeps the last occurrence. -/
def jsonGet : List (String × JsonValue) → String → Option JsonValue
  | [], _ => none
  | (k', v') :: rest, k =>
    match jsonGet rest k with
    | some w => some w
    | none => if k' = k then some v' else none

/-- JavaScript property access `v.k` on a non-null value: `some` on an
object's own property, `none` (undefined) otherwise.  Access on `null`
throws and is handled at each call site instead. -/
def accessProp : JsonValue → String → Option JsonValue
  | .obj fs, k => jsonGet fs k
  | _, _ => none

/-- Whether a JSON number lexeme denotes zero: no nonzero digit in the
mantissa. -/
def numIsZero (lit : String) : Bool :=
  !((lit.data.takeWhile fun c => !(c = 'e' || c = 'E')).any fun c => '1' ≤ c && c ≤ '9')

/-- JavaScript truthiness of a parsed JSON value. -/
def jsTruthy : JsonValue → Bool
  | .null => false
  | .bool b => b
  | .str s => !(s == "")
  | .num lit => !numIsZero lit
  | .arr _ => true
  | .obj _ => true

/-- Truthiness of a possibly-undefined value. -/
def truthyOpt : Option JsonValue → Bool
  | none => false
  | some v => jsTruthy v

/-- `x ?? false`: `null` and undefined become `false`, anything else is
kept. -/
def nullishDefault : Option JsonValue → JsonValue
  | none => .bool false
  | some .null => .bool false
  | some v => v

/-! ## The output record (`ClaudeCommand`) -/

/-- One emitted command record.  `timestamp`, `description` and
`projectPath` are carried opaquely; `success` is unset (`none`) while the
command waits in the pending table and set exactly once on emission. -/
structure ClaudeCommand where
  timestamp : Option JsonValue
  command : String
  source : String
  description : Option JsonValue
  projectPath : Option JsonValue
  success : Option Bool

/-- Set the `success` field, as the engine does just before emitting. -/
def withSuccess (c : ClaudeCommand) (b : Bool) : ClaudeCommand :=
  { c with success := some b }

/-- `createClaudeCommand`: build a record from a tool block and an entry.
A missing or falsy `command` yields `null`; a truthy non-string `command`
makes `normalizeBashCommand` throw inside the method's own `try`,
which also yields `null`. -/
def createClaudeCommand (block : JsonValue) (entry : JsonValue) (source : String) :
    Option ClaudeCommand :=
  match (accessProp block "input").bind fun i => accessProp i "command" with
  | none => none
  | some cv =>
    if jsTruthy cv = false then none
    else
      match cv with
      | .str cmd =>
        some { timestamp :=
                 (fun t => if truthyOpt t then t else none) (accessProp entry "timestamp")
               command := normalizeBashCommand cmd
               source := source
               description :=
                 (fun d => if truthyOpt d then d else none)
                   ((accessProp block "input").bind fun i => accessProp i "description")
               projectPath := accessProp entry "cwd"
               success := none }
      | _ => none

/-! ## Event extractors -/

/-- `entry.message?.content`. -/
def contentOf (entry : JsonValue) : Option JsonValue :=
  (accessProp entry "message").bind fun m => accessProp m "content"

/-- Whether a value is JSON `null` (property access on it throws). -/
def isNullV : JsonValue → Bool
  | .null => true
  | _ => false

/-- The predicate of `findBashToolBlock`'s `.find`:
`block.type === 'tool_use' && block.name === 'Bash'`. -/
def isBashUseBlock (b : JsonValue) : Bool :=
  match accessProp b "type", accessProp b "name" with
  | some (.str t), some (.str n) => t = "tool_use" && n = "Bash"
  | _, _ => false

/-- `findBashToolBlock`: first matching block; touching a `null` element's
`.type` throws. -/
def findBashToolBlock : List JsonValue → Except Unit (Option JsonValue)
  | [] => .ok none
  | b :: rest =>
    if isNullV b then .error ()
    else if isBashUseBlock b then .ok (some b) else findBashToolBlock rest

/-- `extractBashCommand`: only for `assistant` entries with truthy content;
content that is truthy but not an array makes `.find` throw. -/
def extractBashCommand (entry : JsonValue) : Except Unit (Option ClaudeCommand) :=
  if isNullV entry then .error ()
  else
    match accessProp entry "type" with
    | some (.str "assistant") =>
      match contentOf entry with
      | none => .ok none
      | some cv =>
        if jsTruthy cv = false then .ok none
        else
          match cv with
          | .arr blocks =>
            match findBashToolBlock blocks with
            | .error e => .error e
            | .ok none => .ok none
            | .ok (some b) => .ok (createClaudeCommand b entry "bash")
          | _ => .error ()
    | _ => .ok none

/-- `extractToolUseId`: the first Bash block's `id`, with `|| null`
turning a falsy `id` into "no identifier". -/
def extractToolUseId (entry : JsonValue) : Except Unit (Option JsonValue) :=
  if isNullV entry then .error ()
  else
    match accessProp entry "type" with
    | some (.str "assistant") =>
      match contentOf entry with
      | none => .ok none
      | some cv =>
        if jsTruthy cv = false then .ok none
        else
          match cv with
          | .arr blocks =>
            match findBashToolBlock blocks with
            | .error e => .error e
            | .ok none => .ok none
            | .ok (some b) =>
              .ok (if truthyOpt (accessProp b "id") then accessProp b "id" else none)
          | _ => .error ()
    | _ => .ok none

/-- The predicate of `extractToolResult`'s `.find`:
`block.type === 'tool_result' && block.tool_use_id`. -/
def isToolResultBlock (b : JsonValue) : Bool :=
  match accessProp b "type" with
  | some (.str t) => t = "tool_result" && truthyOpt (accessProp b "tool_use_id")
  | _ => false

/-- First tool-result block; touching a `null` element's `.type` throws. -/
def findToolResultBlock : List JsonValue → Except Unit (Option JsonValue)
  | [] => .ok none
  | b :: rest =>
    if isNullV b then .error ()
    else if isToolResultBlock b then .ok (some b) else findToolResultBlock rest

/-- `extractToolResult`: only for `user` entries whose content is the
array form; returns the `tool_use_id` and `is_error ?? false`. -/
def extractToolResult (entry : JsonValue) : Except Unit (Option (JsonValue × JsonValue)) :=
  if isNullV entry then .error ()
  else
    match accessProp entry "type" with
    | some (.str "user") =>
      match contentOf entry with
      | none => .ok none
      | some cv =>
        if jsTruthy cv = false then .ok none
        else
          match cv with
          | .str _ => .ok none
          | .arr blocks =>
            match findToolResultBlock blocks with
            | .error e => .error e
            | .ok none => .ok none
            | .ok (some b) =>
              match accessProp b "tool_use_id" with
              | some tid =>
                if jsTruthy tid then .ok (some (tid, nullishDefault (accessProp b "is_error")))
                else .ok none
              | none => .ok none
          | _ => .error ()
    | _ => .ok none

/-- The tag patterns of `findUserCommand`'s regular expression. -/
def openTag : List Char := "<bash-input>".data

/-- The closing tag. -/
def closeTag : List Char := "</bash-input>".data

/-- The non-greedy inner text: shortest run of non-line-terminator
characters up to the closing tag. -/
def grabInner : List Char → Option (List Char)
  | [] => if begMatch closeTag [] then some [] else none
  | c :: t =>
    if begMatch closeTag (c :: t) then some []
    else if isLineTerm c then none
    else (grabInner t).map fun l => c :: l

/-- The regex `/<bash-input>(.*?)<\/bash-input>/`: leftmost match start,
shortest inner text; a failed start position advances by one character. -/
def findUserCmdText : List Char → Option (List Char)
  | [] => none
  | c :: t =>
    if begMatch openTag (c :: t) then
      match grabInner ((c :: t).drop 12) with
      | some inner => some inner
      | none => findUserCmdText t
    else findUserCmdText t

/-- `findUserCommand`: the trimmed first tag match, if any. -/
def findUserCommand (content : String) : Option String :=
  (findUserCmdText content.data).map fun l => ⟨jsTrim l⟩

/-- `extractUserCommand`: only for `user` entries whose content is plain
text; an empty trimmed match is falsy and yields nothing. -/
def extractUserCommand (entry : JsonValue) : Except Unit (Option ClaudeCommand) :=
  if isNullV entry then .error ()
  else
    match accessProp entry "type" with
    | some (.str "user") =>
      match contentOf entry with
      | none => .ok none
      | some cv =>
        if jsTruthy cv = false then .ok none
        else
          match cv with
          | .str content =>
            match findUserCommand content with
            | none => .ok none
            | some cmd =>
              if cmd = "" then .ok none
              else .ok (createClaudeCommand
                (.obj [("input", .obj [("command", .str cmd)])]) entry "user")
          | _ => .ok none
    | _ => .ok none

/-! ## The pending-command table (a JavaScript `Map`) -/

/-- The pending table: insertion-ordered association list keyed by
tool-use identifier. -/
abbrev PendingMap := List (JsonValue × ClaudeCommand)

/-- `Map.prototype.get`. -/
def mapGet : PendingMap → JsonValue → Option ClaudeCommand
  | [], _ => none
  | (k', c) :: rest, k => if jsonEq k' k then some c else mapGet rest k

/-- `Map.prototype.set`: update in place on an existing key, append
otherwise. -/
def mapSet : PendingMap → JsonValue → ClaudeCommand → PendingMap
  | [], k, c => [(k, c)]
  | (k', c') :: rest, k, c =>
    if jsonEq k' k then (k', c) :: rest else (k', c') :: mapSet rest k c

/-- `Map.prototype.delete`. -/
def mapDelete : PendingMap → JsonValue → PendingMap
  | [], _ => []
  | (k', c') :: rest, k => if jsonEq k' k then rest else (k', c') :: mapDelete rest k

/-! ## The correlation engine -/

/-- The cleanup threshold (`maxPendingEntries`). -/
def maxPendingEntries : Nat := 100

/-- `flushPendingCommands`: emit every pending command with
`success = true`, in insertion order, and clear the table. -/
def flushOutputs (m : PendingMap) : List ClaudeCommand :=
  m.map fun p => withSuccess p.2 true

/-- `cleanupOldPendingCommands`: flush everything when the table size
exceeds the threshold, otherwise do nothing. -/
def cleanupOldPendingCommands (m : PendingMap) : PendingMap × List ClaudeCommand :=
  if m.length > maxPendingEntries then ([], flushOutputs m) else (m, [])

/-- The body of `processEntry` after a successful `JSON.parse`, run left to
right; a thrown step (Boolean result `true` = one diagnostic) keeps the
state changes and emissions of the steps already run, as the enclosing
`try/catch` does. -/
def processEntryParsed (st : PendingMap) (v : JsonValue) :
    PendingMap × List ClaudeCommand × Bool :=
  match extractBashCommand v with
  | .error _ => (st, [], true)
  | .ok bc? =>
    match
      (match bc? with
       | none => Except.ok (st, ([] : List ClaudeCommand))
       | some bc =>
         match extractToolUseId v with
         | .error _ => Except.error (st, ([] : List ClaudeCommand))
         | .ok none => Except.ok (st, [withSuccess bc true])
         | .ok (some id) => Except.ok (mapSet st id bc, [])) with
    | .error (st1, out1) => (st1, out1, true)
    | .ok (st1, out1) =>
      match extractToolResult v with
      | .error _ => (st1, out1, true)
      | .ok tr? =>
        let (st2, out2) :=
          match tr? with
          | none => (st1, ([] : List ClaudeCommand))
          | some (tid, errv) =>
            match mapGet st1 tid with
            | some cmd => (mapDelete st1 tid, [withSuccess cmd (!jsTruthy errv)])
            | none => (st1, [])
        match extractUserCommand v with
        | .error _ => (st2, out1 ++ out2, true)
        | .ok uc? =>
          let out3 :=
            match uc? with
            | some uc => [withSuccess uc true]
            | none => []
          (st2, out1 ++ out2 ++ out3, false)

/-- `processEntry` on one raw line: a failed `JSON.parse` is one
diagnostic and no effect. -/
def processEntry (st : PendingMap) (line : String) :
    PendingMap × List ClaudeCommand × Bool :=
  match jsonParse line with
  | none => (st, [], true)
  | some v => processEntryParsed st v

/-- `lineContainsCommands`: the cheap substring pre-filter. -/
def lineContainsCommands (line : String) : Bool :=
  jsIncludes line "\"Bash\"" || jsIncludes line "\"tool_result\"" ||
  jsIncludes line "<bash-input>"

/-- One iteration of `processLines`' loop on the `count`-th line
(1-based): skip blank lines, skip lines the pre-filter rejects, process
the entry, then run the periodic cleanup when `count` is a multiple of
the threshold.  Diagnostics carry the line number. -/
def stepLine (count : Nat) (st : PendingMap) (line : String) :
    PendingMap × List ClaudeCommand × List Nat :=
  if (jsTrim line.data).isEmpty then (st, [], [])
  else if !lineContainsCommands line then (st, [], [])
  else
    let (st1, out1, bad) := processEntry st line
    let (st2, out2) :=
      if count % maxPendingEntries = 0 then cleanupOldPendingCommands st1 else (st1, [])
    (st2, out1 ++ out2, if bad then [count] else [])

/-- `processLines` from a given line counter. -/
def processLinesAux (count : Nat) (st : PendingMap) :
    List String → PendingMap × List ClaudeCommand × List Nat
  | [] => (st, [], [])
  | l :: ls =>
    let (st1, o1, d1) := stepLine (count + 1) st l
    let (st2, o2, d2) := processLinesAux (count + 1) st1 ls
    (st2, o1 ++ o2, d1 ++ d2)

/-- `createFileStream`: process every line, then flush the remaining
pending commands; the table is empty afterwards. -/
def createFileStream (st : PendingMap) (lines : List String) :
    PendingMap × List ClaudeCommand × List Nat :=
  let (st1, o, d) := processLinesAux 0 st lines
  ([], o ++ flushOutputs st1, d)

/-! ## The project stream orchestrator -/

/-- One log file of a project directory: name, last-modified time, lines. -/
structure LogFile where
  name : String
  mtime : Int
  lines : List String

/-- `s.endsWith(suf)`. -/
def jsEndsWith (s suf : String) : Bool :=
  begMatch suf.data.reverse s.data.reverse

/-- Insert keeping earlier files first among equal modification times. -/
def insertByMtime (f : LogFile) : List LogFile → List LogFile
  | [] => [f]
  | g :: gs => if f.mtime ≤ g.mtime then f :: g :: gs else g :: insertByMtime f gs

/-- Sort by last-modified time ascending (stable, as `Array.sort` with the
`a.mtime - b.mtime` comparator is: the inserted file precedes the
equal-mtime files that followed it in directory order). -/
def sortByMtime : List LogFile → List LogFile
  | [] => []
  | f :: fs => insertByMtime f (sortByMtime fs)

/-- `createProjectStream`: keep the `.jsonl` files, order them by
modification time ascending, and run each file's stream on the shared
parser state (empty again after each file's end-of-file flush). -/
def createProjectStream (files : List LogFile) : List ClaudeCommand × List Nat :=
  let ordered := sortByMtime (files.filter fun f => jsEndsWith f.name ".jsonl")
  let final := ordered.foldl
    (fun (acc : PendingMap × List ClaudeCommand × List Nat) f =>
      let (st, os, ds) := acc
      let (st', o, d) := createFileStream st f.lines
      (st', os ++ o, ds ++ d))
    ([], [], [])
  (final.2.1, final.2.2)

/-- A well-formed Bash tool-use line with identifier `a<i>`, used to
exhibit the bounded-table behavior on concrete logs. -/
def c3UseLine (i : Nat) : String :=
  "\x7b\"type\":\"assistant\",\"message\":\x7b\"content\":[\x7b\"type\":\"tool_use\",\"name\":\"Bash\",\"id\":\"a" ++
    toString i ++ "\",\"input\":\x7b\"command\":\"x\"\x7d\x7d]\x7d\x7d"

/-- 101 distinct pending tool uses followed by 99 blank lines: after the
200th line the pending table still holds 101 entries, because the 200th
line is blank and the periodic cleanup is skipped. -/
def c3Lines : List String :=
  (List.range 101).map c3UseLine ++ List.replicate 99 ""

/-! # Theorems

Auxiliary lemmas first, then one theorem per claim (with its witness or
counterexample where required). -/

/-! ## Substring-search lemmas -/

theorem begMatch_iff (pat l : List Char) :
    begMatch pat l = true ↔ ∃ t, l = pat ++ t := by
  induction pat generalizing l with
  | nil => simp [begMatch]
  | cons p ps ih =>
    cases l with
    | nil => simp [begMatch]
    | cons c cs =>
      simp only [begMatch, Bool.and_eq_true, decide_eq_true_eq, ih]
      constructor
      · rintro ⟨rfl, t, rfl⟩; exact ⟨t, rfl⟩
      · rintro ⟨t, h⟩
        cases h
        exact ⟨rfl, t, rfl⟩

theorem hasSub_iff (pat l : List Char) :
    hasSub pat l = true ↔ ∃ p t, l = p ++ pat ++ t := by
  induction l with
  | nil =>
    simp only [hasSub, List.isEmpty_iff]
    constructor
    · rintro rfl; exact ⟨[], [], rfl⟩
    · rintro ⟨p, t, h⟩
      rcases List.append_eq_nil.mp (List.append_eq_nil.mp h.symm).1 with ⟨_, h2⟩
      exact h2
  | cons c cs ih =>
    simp only [hasSub, Bool.or_eq_true, begMatch_iff, ih]
    constructor
    · rintro (⟨t, h⟩ | ⟨p, t, h⟩)
      · exact ⟨[], t, by simpa using h⟩
      · exact ⟨c :: p, t, by simp [h]⟩
    · rintro ⟨p, t, h⟩
      cases p with
      | nil => exact Or.inl ⟨t, by simpa using h⟩
      | cons x xs =>
        simp only [List.cons_append, List.cons.injEq] at h
        exact Or.inr ⟨xs, t, by simp [h.2]⟩

theorem hasSub_of_parts {pat l : List Char} (p t : List Char)
    (h : l = p ++ pat ++ t) : hasSub pat l = true :=
  (hasSub_iff pat l).mpr ⟨p, t, h⟩

theorem hasSub_trans {a b c : List Char}
    (h1 : hasSub a b = true) (h2 : hasSub b c = true) : hasSub a c = true := by
  rcases (hasSub_iff a b).mp h1 with ⟨p, t, rfl⟩
  rcases (hasSub_iff _ c).mp h2 with ⟨q, u, rfl⟩
  exact hasSub_of_parts (q ++ p) (t ++ u) (by simp)

/-! ## Trim, split and join lemmas -/

theorem dropWhile_head_not {p : Char → Bool} {l : List Char} {c : Char} {cs : List Char}
    (h : l.dropWhile p = c :: cs) : p c = false := by
  induction l with
  | nil => simp at h
  | cons x xs ih =>
    by_cases hx : p x
    · exact ih (by simpa [List.dropWhile_cons, hx] using h)
    · rw [List.dropWhile_cons_of_neg hx] at h
      cases h
      simpa using hx

theorem mem_of_mem_jsTrim {l : List Char} {x : Char} (h : x ∈ jsTrim l) : x ∈ l := by
  unfold jsTrim at h
  rw [List.mem_reverse] at h
  have h1 := (List.dropWhile_suffix isJsWs).subset h
  rw [List.mem_reverse] at h1
  exact (List.dropWhile_suffix isJsWs).subset h1

theorem jsTrim_eq_nil {l : List Char} (h : jsTrim l = []) : ∀ x ∈ l, isJsWs x = true := by
  unfold jsTrim at h
  rw [List.reverse_eq_nil_iff, List.dropWhile_eq_nil_iff] at h
  intro x hx
  rcases List.mem_append.mp (by
      rw [List.takeWhile_append_dropWhile (p := isJsWs)]; exact hx :
      x ∈ l.takeWhile isJsWs ++ l.dropWhile isJsWs) with h1 | h1
  · exact List.mem_takeWhile_imp h1
  · exact h x (List.mem_reverse.mpr h1)

theorem jsTrim_cons_head {l : List Char} {c : Char} {cs : List Char}
    (h : jsTrim l = c :: cs) : isJsWs c = false := by
  rcases hd : l.dropWhile isJsWs with _ | ⟨d, ds⟩
  · rw [jsTrim, hd] at h; simp at h
  · have hdws : isJsWs d = false := dropWhile_head_not hd
    have hsuf : (d :: ds).reverse.dropWhile isJsWs <:+ (d :: ds).reverse :=
      List.dropWhile_suffix isJsWs
    rw [jsTrim, hd] at h
    have hpref : ((d :: ds).reverse.dropWhile isJsWs).reverse <+: (d :: ds) :=
      List.reverse_suffix.mp (by rw [List.reverse_reverse]; exact hsuf)
    rw [h] at hpref
    rcases hpref with ⟨t, ht⟩
    simp only [List.cons_append, List.cons.injEq] at ht
    rw [ht.1]
    exact hdws

theorem jsTrim_reverse_head {l : List Char} {c : Char} {cs : List Char}
    (h : (jsTrim l).reverse = c :: cs) : isJsWs c = false := by
  rw [jsTrim, List.reverse_reverse] at h
  exact dropWhile_head_not h

theorem splitNl_ne_nil (l : List Char) : splitNl l ≠ [] := by
  cases l with
  | nil => simp [splitNl]
  | cons c cs =>
    rcases hs : splitNl cs with _ | ⟨q, r⟩
    · simp [splitNl, hs]
    · by_cases hc : c = '\n' <;> simp [splitNl, hs, hc]

theorem mem_splitNl_no_nl {l : List Char} {p : List Char} (h : p ∈ splitNl l) :
    '\n' ∉ p := by
  induction l generalizing p with
  | nil =>
    simp only [splitNl, List.mem_singleton] at h
    simp [h]
  | cons c cs ih =>
    rcases hs : splitNl cs with _ | ⟨q, r⟩
    · exact absurd hs (splitNl_ne_nil cs)
    · simp only [splitNl, hs] at h
      by_cases hc : c = '\n'
      · rw [if_pos hc] at h
        rcases List.mem_cons.mp h with rfl | h2
        · simp
        · exact ih (hs ▸ h2)
      · rw [if_neg hc] at h
        rcases List.mem_cons.mp h with rfl | h2
        · intro hm
          rcases List.mem_cons.mp hm with h3 | h3
          · exact hc h3.symm
          · exact ih (hs ▸ List.mem_cons_self q r) h3
        · exact ih (hs ▸ List.mem_cons_of_mem q h2)

theorem splitNl_no_nl {l : List Char} (h : '\n' ∉ l) : splitNl l = [l] := by
  induction l with
  | nil => rfl
  | cons c cs ih =>
    have hc : ¬ c = '\n' := fun hh => h (hh ▸ List.mem_cons_self c cs)
    have hcs : '\n' ∉ cs := fun hh => h (List.mem_cons_of_mem c hh)
    simp [splitNl, ih hcs, hc]

theorem joinBsN_no_nl {L : List (List Char)} (h : ∀ p ∈ L, '\n' ∉ p) :
    '\n' ∉ joinBsN L := by
  induction L with
  | nil => simp [joinBsN]
  | cons x R ih =>
    cases R with
    | nil => simpa [joinBsN] using h x (by simp)
    | cons y r =>
      simp only [joinBsN, List.mem_append, List.mem_cons]
      rintro (h1 | h1 | h1 | h1)
      · exact h x (by simp) h1
      · simp at h1
      · simp at h1
      · exact ih (fun p hp => h p (List.mem_cons_of_mem x hp)) h1

theorem joinBsN_cons_cons (c : Char) (cs : List Char) (R : List (List Char)) :
    ∃ z, joinBsN ((c :: cs) :: R) = c :: z := by
  cases R with
  | nil => exact ⟨cs, rfl⟩
  | cons y r => exact ⟨cs ++ '\\' :: 'n' :: joinBsN (y :: r), rfl⟩

theorem joinBsN_last_piece : ∀ (L : List (List Char)) (x : List Char),
    ∃ pre q, joinBsN (x :: L) = pre ++ q ∧ q ∈ x :: L := by
  intro L
  induction L with
  | nil => exact fun x => ⟨[], x, by simp [joinBsN]⟩
  | cons y r ih =>
    intro x
    rcases ih y with ⟨pre, q, hq, hmem⟩
    exact ⟨x ++ '\\' :: 'n' :: pre, q, by simp [joinBsN, hq], List.mem_cons_of_mem x hmem⟩

theorem jsTrim_fixed {l : List Char} {c d : Char} {cs ds : List Char}
    (h1 : l = c :: cs) (h2 : isJsWs c = false)
    (h3 : l.reverse = d :: ds) (h4 : isJsWs d = false) : jsTrim l = l := by
  have e1 : l.dropWhile isJsWs = l := by
    rw [h1]; exact List.dropWhile_cons_of_neg (by simp [h2])
  rw [jsTrim, e1, h3, List.dropWhile_cons_of_neg (by simp [h4]), ← h3,
    List.reverse_reverse]

/-- C8.  The command-text normalization (split on line breaks, trim each
line, drop empty lines, rejoin with the literal two-character `\n`) is
idempotent. -/
theorem c8_normalize_idempotent (x : String) :
    normalizeBashCommand (normalizeBashCommand x) = normalizeBashCommand x := by
  have hmem : ∀ p ∈ ((splitNl x.data).map jsTrim).filter (fun l => !l.isEmpty),
      p ≠ [] ∧ '\n' ∉ p ∧ (∀ c cs, p = c :: cs → isJsWs c = false) ∧
      (∀ d ds, p.reverse = d :: ds → isJsWs d = false) := by
    intro p hp
    rcases List.mem_filter.mp hp with ⟨hp1, hp2⟩
    rcases List.mem_map.mp hp1 with ⟨q, hq, rfl⟩
    refine ⟨by simpa using hp2, ?_, ?_, ?_⟩
    · exact fun hn => mem_splitNl_no_nl hq (mem_of_mem_jsTrim hn)
    · exact fun c cs hc => jsTrim_cons_head hc
    · exact fun d ds hd => jsTrim_reverse_head hd
  rcases hP : ((splitNl x.data).map jsTrim).filter (fun l => !l.isEmpty) with _ | ⟨p0, R⟩
  · have hx : normalizeBashCommand x = ⟨[]⟩ := by
      rw [normalizeBashCommand, hP]
      rfl
    rw [hx]
    rfl
  · rw [hP] at hmem
    set out := joinBsN (p0 :: R) with hout
    have hno : '\n' ∉ out :=
      joinBsN_no_nl (fun p hp => (hmem p hp).2.1)
    rcases hp0 : p0 with _ | ⟨c, cs⟩
    · exact absurd hp0 (hmem p0 (by simp)).1
    have hc : isJsWs c = false := (hmem p0 (by simp)).2.2.1 c cs hp0
    rcases joinBsN_cons_cons c cs R with ⟨z, hz⟩
    have houtc : out = c :: z := by rw [hout, hp0]; exact hz
    rcases joinBsN_last_piece R p0 with ⟨pre, q, hq, hqmem⟩
    have hqne : q ≠ [] := (hmem q hqmem).1
    rcases hq2 : q.reverse with _ | ⟨d, ds⟩
    · exact absurd (by simpa using congrArg List.reverse hq2) hqne
    have hd : isJsWs d = false := (hmem q hqmem).2.2.2 d ds hq2
    have houtr : out.reverse = d :: (ds ++ pre.reverse) := by
      rw [hout, hq, List.reverse_append, hq2]
      rfl
    have htrim : jsTrim out = out := jsTrim_fixed houtc hc houtr hd
    have hx : normalizeBashCommand x = ⟨out⟩ := by
      rw [normalizeBashCommand, hP, ← hout]
    rw [hx]
    rw [normalizeBashCommand]
    have hdata : (⟨out⟩ : String).data = out := rfl
    rw [hdata, splitNl_no_nl hno]
    simp only [List.map_cons, List.map_nil, htrim, List.filter]
    rw [houtc]
    rfl

/-! ## Parser consumption and quoted-string lemmas -/

theorem hasSub_of_suffix {q r cs : List Char} (h : r <:+ cs)
    (hs : hasSub q r = true) : hasSub q cs = true := by
  rcases h with ⟨p, rfl⟩
  rcases (hasSub_iff q r).mp hs with ⟨a, t, rfl⟩
  exact hasSub_of_parts (p ++ a) t (by simp)

theorem not_bs_of_suffix {r cs : List Char} (h : r <:+ cs) (hb : '\\' ∉ cs) :
    '\\' ∉ r := fun hm => hb (h.subset hm)

theorem skipWs_suffix (cs : List Char) : skipWs cs <:+ cs :=
  List.dropWhile_suffix isJsonWs

theorem skipWs_decomp (cs : List Char) :
    cs = cs.takeWhile isJsonWs ++ skipWs cs :=
  (List.takeWhile_append_dropWhile (p := isJsonWs) (l := cs)).symm

theorem parseStr_clean : ∀ {cs s r : List Char}, '\\' ∉ cs →
    parseStr cs = some (s, r) → cs = s ++ '"' :: r := by
  intro cs
  induction cs with
  | nil => intro s r _ hp; simp [parseStr] at hp
  | cons c cs ih =>
    intro s r hb hp
    have hcb : ¬ c = '\\' := fun hh => hb (hh ▸ List.mem_cons_self c cs)
    have hcsb : '\\' ∉ cs := fun hh => hb (List.mem_cons_of_mem c hh)
    rw [parseStr.eq_def] at hp
    simp only at hp
    by_cases hq : c = '"'
    · rw [if_pos hq] at hp
      rcases hp with ⟨⟩
      simp [hq]
    · rw [if_neg hq, if_neg hcb] at hp
      by_cases hctl : c.toNat < 32
      · rw [if_pos hctl] at hp
        simp at hp
      · rw [if_neg hctl] at hp
        rcases hps : parseStr cs with _ | ⟨s', r'⟩
        · rw [hps] at hp; simp at hp
        · rw [hps] at hp
          rcases hp with ⟨⟩
          rw [List.cons_append]
          rw [← ih hcsb hps]

theorem lexInt_suffix {cs i r : List Char} (h : lexInt cs = some (i, r)) :
    r <:+ cs := by
  cases cs with
  | nil => simp [lexInt] at h
  | cons c cs =>
    rw [lexInt.eq_def] at h
    simp only at h
    by_cases h0 : c = '0'
    · rw [if_pos h0] at h
      rcases h with ⟨⟩
      exact List.suffix_cons _ _
    · rw [if_neg h0] at h
      by_cases hd : c.isDigit
      · rw [if_pos hd] at h
        rcases h with ⟨⟩
        exact (List.dropWhile_suffix _).trans (List.suffix_cons c cs)
      · rw [if_neg hd] at h
        simp at h

theorem lexFrac_suffix {cs f r : List Char} (h : lexFrac cs = some (f, r)) :
    r <:+ cs := by
  rw [lexFrac.eq_def] at h
  split at h
  · simp only at h
    split at h
    · simp at h
    · rcases h with ⟨⟩
      exact (List.dropWhile_suffix _).trans (List.suffix_cons _ _)
  · rcases h with ⟨⟩
    exact List.suffix_refl _

theorem lexExp_suffix {cs e r : List Char} (h : lexExp cs = some (e, r)) :
    r <:+ cs := by
  rw [lexExp.eq_def] at h
  split at h
  · rcases h with ⟨⟩
    exact List.suffix_refl _
  · rename_i c rest
    by_cases he : c = 'e' || c = 'E'
    · rw [if_pos he] at h
      simp only at h
      rcases rest with _ | ⟨s2, r2⟩
      · simp only at h
        split at h
        · simp at h
        · rcases h with ⟨⟩
          exact (List.dropWhile_suffix _).trans (List.suffix_cons c [])
      · simp only at h
        by_cases hs : s2 = '+' || s2 = '-'
        · rw [if_pos hs] at h
          simp only at h
          split at h
          · simp at h
          · rcases h with ⟨⟩
            exact ((List.dropWhile_suffix _).trans (List.suffix_cons s2 r2)).trans
              (List.suffix_cons c (s2 :: r2))
        · rw [if_neg hs] at h
          simp only at h
          split at h
          · simp at h
          · rcases h with ⟨⟩
            exact (List.dropWhile_suffix _).trans (List.suffix_cons c (s2 :: r2))
    · rw [if_neg he] at h
      rcases h with ⟨⟩
      exact List.suffix_refl _

theorem lexNum_suffix {cs lit r : List Char} (h : lexNum cs = some (lit, r)) :
    r <:+ cs := by
  rw [lexNum.eq_def] at h
  split at h
  next cs2 =>
    rcases ho : lexInt cs2 with _ | ⟨i, r1⟩
    · rw [ho] at h; simp [Option.bind] at h
    rw [ho] at h
    simp only [Option.bind] at h
    rcases hf : lexFrac r1 with _ | ⟨f, r2⟩
    · rw [hf] at h; simp [Option.bind] at h
    rw [hf] at h
    simp only [Option.bind] at h
    rcases he : lexExp r2 with _ | ⟨e, r3⟩
    · rw [he] at h; simp [Option.map] at h
    rw [he] at h
    simp only [Option.map] at h
    rcases h with ⟨⟩
    exact (((lexExp_suffix he).trans (lexFrac_suffix hf)).trans
      (lexInt_suffix ho)).trans (List.suffix_cons _ _)
  next =>
    rcases ho : lexInt cs with _ | ⟨i, r1⟩
    · rw [ho] at h; simp [Option.bind] at h
    rw [ho] at h
    simp only [Option.bind] at h
    rcases hf : lexFrac r1 with _ | ⟨f, r2⟩
    · rw [hf] at h; simp [Option.bind] at h
    rw [hf] at h
    simp only [Option.bind] at h
    rcases he : lexExp r2 with _ | ⟨e, r3⟩
    · rw [he] at h; simp [Option.map] at h
    rw [he] at h
    simp only [Option.map] at h
    rcases h with ⟨⟩
    exact ((lexExp_suffix he).trans (lexFrac_suffix hf)).trans (lexInt_suffix ho)

theorem stringsOfFields_append (a b : List (String × JsonValue)) :
    stringsOfFields (a ++ b) = stringsOfFields a ++ stringsOfFields b := by
  induction a with
  | nil => simp [stringsOfFields]
  | cons kv r ih =>
    rcases kv with ⟨k, v⟩
    simp [stringsOfFields, ih]

theorem stringsOfList_append (a b : List JsonValue) :
    stringsOfList (a ++ b) = stringsOfList a ++ stringsOfList b := by
  induction a with
  | nil => simp [stringsOfList]
  | cons v r ih => simp [stringsOfList, ih]

/-! The central parser lemma: every string literal of a parsed value —
string leaves and object keys alike — occurs quoted in the source text,
provided the text contains no backslash (so no escape can alter a
literal's spelling); and each grammar production consumes from the front,
returning a suffix. -/

theorem parse_quoted : ∀ f : Nat,
    (∀ cs v rest, parseVal f cs = some (v, rest) → '\\' ∉ cs →
       rest <:+ cs ∧ ∀ s ∈ stringsOf v, hasSub (quotedStr s) cs = true) ∧
    (∀ cs v rest, parseObjBody f cs = some (v, rest) → '\\' ∉ cs →
       rest <:+ cs ∧ ∀ s ∈ stringsOf v, hasSub (quotedStr s) cs = true) ∧
    (∀ cs acc v rest, parseMembers f cs acc = some (v, rest) → '\\' ∉ cs →
       rest <:+ cs ∧ ∀ s ∈ stringsOf v,
         s ∈ stringsOfFields acc ∨ hasSub (quotedStr s) cs = true) ∧
    (∀ cs v rest, parseArrBody f cs = some (v, rest) → '\\' ∉ cs →
       rest <:+ cs ∧ ∀ s ∈ stringsOf v, hasSub (quotedStr s) cs = true) ∧
    (∀ cs acc v rest, parseElems f cs acc = some (v, rest) → '\\' ∉ cs →
       rest <:+ cs ∧ ∀ s ∈ stringsOf v,
         s ∈ stringsOfList acc ∨ hasSub (quotedStr s) cs = true) := by
  intro f
  induction f with
  | zero =>
    refine ⟨?_, ?_, ?_, ?_, ?_⟩
    · intro cs v rest hp; rw [parseVal] at hp; exact absurd hp (by simp)
    · intro cs v rest hp; rw [parseObjBody.eq_def] at hp
      split at hp
      · exact absurd hp (by simp)
      · rename_i fq heq
        exact absurd heq (by simp)
    · intro cs acc v rest hp; rw [parseMembers.eq_def] at hp
      split at hp
      · exact absurd hp (by simp)
      · rename_i fq heq
        exact absurd heq (by simp)
    · intro cs v rest hp; rw [parseArrBody.eq_def] at hp
      split at hp
      · exact absurd hp (by simp)
      · rename_i fq heq
        exact absurd heq (by simp)
    · intro cs acc v rest hp; rw [parseElems.eq_def] at hp
      split at hp
      · exact absurd hp (by simp)
      · rename_i fq heq
        exact absurd heq (by simp)
  | succ f ih =>
    obtain ⟨ihv, iho, ihm, iha, ihe⟩ := ih
    refine ⟨?_, ?_, ?_, ?_, ?_⟩
    -- parseVal
    · intro cs v rest hp hb
      rw [parseVal] at hp
      split at hp
      -- object
      · rename_i x r heq
        have hsfx : skipWs r <:+ cs :=
          ((skipWs_suffix r).trans (List.suffix_cons _ _)).trans (heq ▸ skipWs_suffix cs)
        obtain ⟨h1, h2⟩ := iho (skipWs r) v rest hp (not_bs_of_suffix hsfx hb)
        exact ⟨h1.trans hsfx, fun s hs => hasSub_of_suffix hsfx (h2 s hs)⟩
      -- array
      · rename_i x r heq
        have hsfx : skipWs r <:+ cs :=
          ((skipWs_suffix r).trans (List.suffix_cons _ _)).trans (heq ▸ skipWs_suffix cs)
        obtain ⟨h1, h2⟩ := iha (skipWs r) v rest hp (not_bs_of_suffix hsfx hb)
        exact ⟨h1.trans hsfx, fun s hs => hasSub_of_suffix hsfx (h2 s hs)⟩
      -- string
      · rename_i x r heq
        split at hp
        · rename_i s r2 hps
          rcases hp with ⟨⟩
          have hrcs : r <:+ cs := (List.suffix_cons _ _).trans (heq ▸ skipWs_suffix cs)
          have hclean : r = s ++ '"' :: rest := parseStr_clean (not_bs_of_suffix hrcs hb) hps
          have hcs : cs = cs.takeWhile isJsonWs ++ ('"' :: (s ++ '"' :: rest)) := by
            rw [← hclean, ← heq]; exact skipWs_decomp cs
          refine ⟨List.IsSuffix.trans ⟨s ++ ['"'], by simp [hclean]⟩ hrcs, ?_⟩
          intro s' hs'
          simp only [stringsOf, List.mem_singleton] at hs'
          subst hs'
          refine hasSub_of_parts (cs.takeWhile isJsonWs) rest ?_
          have hq : cs.takeWhile isJsonWs ++ quotedStr ⟨s⟩ ++ rest =
              cs.takeWhile isJsonWs ++ ('"' :: (s ++ '"' :: rest)) := by
            simp [quotedStr]
          rw [hq]
          exact hcs
        · exact absurd hp (by simp)
      -- true
      · rename_i x r heq
        rcases hp with ⟨⟩
        refine ⟨List.IsSuffix.trans ⟨['t', 'r', 'u', 'e'], heq.symm⟩ (skipWs_suffix cs), ?_⟩
        intro s hs; simp [stringsOf] at hs
      -- false
      · rename_i x r heq
        rcases hp with ⟨⟩
        refine ⟨List.IsSuffix.trans ⟨['f', 'a', 'l', 's', 'e'], heq.symm⟩ (skipWs_suffix cs), ?_⟩
        intro s hs; simp [stringsOf] at hs
      -- null
      · rename_i x r heq
        rcases hp with ⟨⟩
        refine ⟨List.IsSuffix.trans ⟨['n', 'u', 'l', 'l'], heq.symm⟩ (skipWs_suffix cs), ?_⟩
        intro s hs; simp [stringsOf] at hs
      -- number
      · split at hp
        · rename_i lit r2 hlx
          rcases hp with ⟨⟩
          refine ⟨(lexNum_suffix hlx).trans (skipWs_suffix cs), ?_⟩
          intro s hs; simp [stringsOf] at hs
        · exact absurd hp (by simp)
    -- parseObjBody
    · intro cs v rest hp hb
      rw [parseObjBody.eq_def] at hp
      split at hp
      · exact absurd hp (by simp)
      · rename_i cs xa xb fq heq
        obtain rfl : fq = f := (Nat.succ.inj heq).symm
        split at hp
        · rename_i r
          rcases hp with ⟨⟩
          refine ⟨List.suffix_cons _ _, ?_⟩
          intro s hs; simp [stringsOf, stringsOfFields] at hs
        · obtain ⟨h1, h2⟩ := ihm cs [] v rest hp hb
          refine ⟨h1, fun s hs => ?_⟩
          rcases h2 s hs with hl | hr
          · simp [stringsOfFields] at hl
          · exact hr
    -- parseMembers
    · intro cs acc v rest hp hb
      rw [parseMembers.eq_def] at hp
      split at hp
      · exact absurd hp (by simp)
      · rename_i cs acc xa xb xc fq heq
        obtain rfl : fq = f := (Nat.succ.inj heq).symm
        split at hp
        · rename_i r
          split at hp
          · rename_i k r1 hpk
            split at hp
            · rename_i r2 heq2
              split at hp
              · rename_i v0 r3 hpv
                have hrcs : r <:+ '"' :: r := List.suffix_cons _ _
                have hclean : r = k ++ '"' :: r1 :=
                  parseStr_clean (not_bs_of_suffix hrcs hb) hpk
                have hr1 : r1 <:+ '"' :: r :=
                  List.IsSuffix.trans ⟨k ++ ['"'], by simp [hclean]⟩ hrcs
                have hr2 : r2 <:+ '"' :: r :=
                  ((List.suffix_cons _ _).trans (heq2 ▸ skipWs_suffix r1)).trans hr1
                obtain ⟨hs3, hstr0⟩ := ihv r2 v0 r3 hpv (not_bs_of_suffix hr2 hb)
                have hr3 : r3 <:+ '"' :: r := hs3.trans hr2
                have hkq : hasSub (quotedStr ⟨k⟩) ('"' :: r) = true := by
                  refine hasSub_of_parts [] r1 ?_
                  rw [hclean]
                  simp [quotedStr]
                have hnewstrings : ∀ s ∈ stringsOfFields (acc ++ [(⟨k⟩, v0)]),
                    s ∈ stringsOfFields acc ∨ hasSub (quotedStr s) ('"' :: r) = true := by
                  intro s hs
                  rw [stringsOfFields_append] at hs
                  rcases List.mem_append.mp hs with hl | hq
                  · exact Or.inl hl
                  · simp only [stringsOfFields] at hq
                    rw [List.append_nil] at hq
                    rcases List.mem_cons.mp hq with rfl | hq2
                    · exact Or.inr hkq
                    · exact Or.inr (hasSub_of_suffix hr2 (hstr0 s hq2))
                split at hp
                · rename_i r4 heq3
                  have hr4 : skipWs r4 <:+ '"' :: r :=
                    ((skipWs_suffix r4).trans
                      ((List.suffix_cons _ _).trans (heq3 ▸ skipWs_suffix r3))).trans hr3
                  obtain ⟨ha1, ha2⟩ := ihm (skipWs r4) (acc ++ [(⟨k⟩, v0)]) v rest hp
                    (not_bs_of_suffix hr4 hb)
                  refine ⟨ha1.trans hr4, fun s hs => ?_⟩
                  rcases ha2 s hs with hl | hq
                  · exact hnewstrings s hl
                  · exact Or.inr (hasSub_of_suffix hr4 hq)
                · rename_i r4 heq3
                  rcases hp with ⟨⟩
                  refine ⟨((List.suffix_cons _ _).trans (heq3 ▸ skipWs_suffix r3)).trans hr3, ?_⟩
                  intro s hs
                  exact hnewstrings s (by simpa [stringsOf] using hs)
                · exact absurd hp (by simp)
              · exact absurd hp (by simp)
            · exact absurd hp (by simp)
          · exact absurd hp (by simp)
        · exact absurd hp (by simp)
    -- parseArrBody
    · intro cs v rest hp hb
      rw [parseArrBody.eq_def] at hp
      split at hp
      · exact absurd hp (by simp)
      · rename_i cs xa xb fq heq
        obtain rfl : fq = f := (Nat.succ.inj heq).symm
        split at hp
        · rename_i r
          rcases hp with ⟨⟩
          refine ⟨List.suffix_cons _ _, ?_⟩
          intro s hs; simp [stringsOf, stringsOfList] at hs
        · obtain ⟨h1, h2⟩ := ihe cs [] v rest hp hb
          refine ⟨h1, fun s hs => ?_⟩
          rcases h2 s hs with hl | hr
          · simp [stringsOfList] at hl
          · exact hr
    -- parseElems
    · intro cs acc v rest hp hb
      rw [parseElems.eq_def] at hp
      split at hp
      · exact absurd hp (by simp)
      · rename_i cs acc xa xb xc fq heq
        obtain rfl : fq = f := (Nat.succ.inj heq).symm
        split at hp
        · rename_i v0 r hpv
          obtain ⟨hs1, hstr0⟩ := ihv cs v0 r hpv hb
          have hnewstrings : ∀ s ∈ stringsOfList (acc ++ [v0]),
              s ∈ stringsOfList acc ∨ hasSub (quotedStr s) cs = true := by
            intro s hs
            rw [stringsOfList_append] at hs
            rcases List.mem_append.mp hs with hl | hq
            · exact Or.inl hl
            · simp only [stringsOfList, List.append_nil] at hq
              exact Or.inr (hstr0 s hq)
          split at hp
          · rename_i r2 heq2
            have hr2 : r2 <:+ cs :=
              ((List.suffix_cons _ _).trans (heq2 ▸ skipWs_suffix r)).trans hs1
            obtain ⟨ha1, ha2⟩ := ihe r2 (acc ++ [v0]) v rest hp (not_bs_of_suffix hr2 hb)
            refine ⟨ha1.trans hr2, fun s hs => ?_⟩
            rcases ha2 s hs with hl | hq
            · exact hnewstrings s hl
            · exact Or.inr (hasSub_of_suffix hr2 hq)
          · rename_i r2 heq2
            rcases hp with ⟨⟩
            refine ⟨((List.suffix_cons _ _).trans (heq2 ▸ skipWs_suffix r)).trans hs1, ?_⟩
            intro s hs
            exact hnewstrings s (by simpa [stringsOf] using hs)
          · exact absurd hp (by simp)
        · exact absurd hp (by simp)

/-! ## From extractor events to string literals -/

theorem jsonGet_mem {fs : List (String × JsonValue)} {k : String} {w : JsonValue}
    (h : jsonGet fs k = some w) : ∃ k', (k', w) ∈ fs := by
  induction fs with
  | nil => simp [jsonGet] at h
  | cons kv rest ih =>
    rcases kv with ⟨k', v'⟩
    rw [jsonGet] at h
    split at h
    · rename_i w' hw
      rcases h with ⟨⟩
      rcases ih hw with ⟨k2, hk2⟩
      exact ⟨k2, List.mem_cons_of_mem _ hk2⟩
    · split at h
      · rcases h with ⟨⟩
        exact ⟨k', List.mem_cons_self _ _⟩
      · simp at h

theorem mem_stringsOfFields_of_val {fs : List (String × JsonValue)} {k : String}
    {w : JsonValue} {s : String} (hm : (k, w) ∈ fs) (hs : s ∈ stringsOf w) :
    s ∈ stringsOfFields fs := by
  induction fs with
  | nil => simp at hm
  | cons kv rest ih =>
    rcases kv with ⟨k1, v1⟩
    rcases List.mem_cons.mp hm with h | h
    · rcases h with ⟨⟩
      rw [stringsOfFields]
      exact List.mem_cons_of_mem _ (List.mem_append.mpr (Or.inl hs))
    · rw [stringsOfFields]
      exact List.mem_cons_of_mem _ (List.mem_append.mpr (Or.inr (ih h)))

theorem mem_stringsOfList_of_elem {l : List JsonValue} {b : JsonValue} {s : String}
    (hm : b ∈ l) (hs : s ∈ stringsOf b) : s ∈ stringsOfList l := by
  induction l with
  | nil => simp at hm
  | cons v rest ih =>
    rcases List.mem_cons.mp hm with h | h
    · rcases h with ⟨⟩
      rw [stringsOfList]
      exact List.mem_append.mpr (Or.inl hs)
    · rw [stringsOfList]
      exact List.mem_append.mpr (Or.inr (ih h))

theorem accessProp_strings {v : JsonValue} {k : String} {w : JsonValue} {s : String}
    (h : accessProp v k = some w) (hs : s ∈ stringsOf w) : s ∈ stringsOf v := by
  cases v with
  | obj fs =>
    rcases jsonGet_mem (h : jsonGet fs k = some w) with ⟨k', hk'⟩
    rw [stringsOf]
    exact mem_stringsOfFields_of_val hk' hs
  | null => simp [accessProp] at h
  | bool b => simp [accessProp] at h
  | str t => simp [accessProp] at h
  | num t => simp [accessProp] at h
  | arr l => simp [accessProp] at h

theorem contentOf_strings {v : JsonValue} {w : JsonValue} {s : String}
    (h : contentOf v = some w) (hs : s ∈ stringsOf w) : s ∈ stringsOf v := by
  rw [contentOf] at h
  rcases hm : accessProp v "message" with _ | m
  · rw [hm] at h; simp at h
  · rw [hm] at h
    simp only [Option.bind] at h
    exact accessProp_strings hm (accessProp_strings h hs)

theorem findBash_sound : ∀ {blocks : List JsonValue} {b : JsonValue},
    findBashToolBlock blocks = .ok (some b) → b ∈ blocks ∧ isBashUseBlock b = true := by
  intro blocks
  induction blocks with
  | nil => intro b h; simp [findBashToolBlock] at h
  | cons x rest ih =>
    intro b h
    rw [findBashToolBlock] at h
    split at h
    · simp at h
    · split at h
      · rcases h with ⟨⟩
        exact ⟨List.mem_cons_self _ _, by assumption⟩
      · rcases ih h with ⟨h1, h2⟩
        exact ⟨List.mem_cons_of_mem _ h1, h2⟩

theorem isBashUseBlock_name {b : JsonValue} (h : isBashUseBlock b = true) :
    accessProp b "name" = some (.str "Bash") := by
  rw [isBashUseBlock] at h
  split at h
  · rename_i t n ht hn
    simp only [Bool.and_eq_true, decide_eq_true_eq] at h
    rw [hn, h.2]
  · simp at h

theorem findTR_sound : ∀ {blocks : List JsonValue} {b : JsonValue},
    findToolResultBlock blocks = .ok (some b) → b ∈ blocks ∧ isToolResultBlock b = true := by
  intro blocks
  induction blocks with
  | nil => intro b h; simp [findToolResultBlock] at h
  | cons x rest ih =>
    intro b h
    rw [findToolResultBlock] at h
    split at h
    · simp at h
    · split at h
      · rcases h with ⟨⟩
        exact ⟨List.mem_cons_self _ _, by assumption⟩
      · rcases ih h with ⟨h1, h2⟩
        exact ⟨List.mem_cons_of_mem _ h1, h2⟩

theorem isToolResultBlock_type {b : JsonValue} (h : isToolResultBlock b = true) :
    accessProp b "type" = some (.str "tool_result") := by
  rw [isToolResultBlock] at h
  split at h
  · rename_i t ht
    simp only [Bool.and_eq_true, decide_eq_true_eq] at h
    rw [ht, h.1]
  · simp at h

theorem findUserCmdText_marker : ∀ {cs : List Char} {x : List Char},
    findUserCmdText cs = some x → hasSub openTag cs = true := by
  intro cs
  induction cs with
  | nil => intro x h; simp [findUserCmdText] at h
  | cons c t ih =>
    intro x h
    by_cases hbeg : begMatch openTag (c :: t) = true
    · rw [hasSub, hbeg]
      simp
    · rw [findUserCmdText, if_neg hbeg] at h
      rw [hasSub, ih h]
      simp

theorem extractBash_strings {v : JsonValue} {c : ClaudeCommand}
    (h : extractBashCommand v = .ok (some c)) : "Bash" ∈ stringsOf v := by
  rw [extractBashCommand] at h
  split at h
  · simp at h
  · split at h
    · rename_i heq1
      split at h
      · simp at h
      · rename_i cv heq2
        split at h
        · simp at h
        · split at h
          · rename_i blocks htru
            split at h
            · simp at h
            · simp at h
            · rename_i b heqf
              obtain ⟨hmem, hbash⟩ := findBash_sound heqf
              have hname := isBashUseBlock_name hbash
              have h1 : "Bash" ∈ stringsOf b :=
                accessProp_strings hname (by rw [stringsOf]; exact List.mem_singleton.mpr rfl)
              have h2 : "Bash" ∈ stringsOf (JsonValue.arr blocks) := by
                rw [stringsOf]
                exact mem_stringsOfList_of_elem hmem h1
              exact contentOf_strings heq2 h2
          · simp at h
    · simp at h

theorem extractTR_strings {v : JsonValue} {p : JsonValue × JsonValue}
    (h : extractToolResult v = .ok (some p)) : "tool_result" ∈ stringsOf v := by
  rw [extractToolResult] at h
  split at h
  · simp at h
  · split at h
    · rename_i heq1
      split at h
      · simp at h
      · rename_i cv heq2
        split at h
        · simp at h
        · split at h
          · simp at h
          · rename_i blocks htru
            split at h
            · simp at h
            · simp at h
            · rename_i b heqf
              obtain ⟨hmem, htr⟩ := findTR_sound heqf
              have htype := isToolResultBlock_type htr
              have h1 : "tool_result" ∈ stringsOf b :=
                accessProp_strings htype (by rw [stringsOf]; exact List.mem_singleton.mpr rfl)
              have h2 : "tool_result" ∈ stringsOf (JsonValue.arr blocks) := by
                rw [stringsOf]
                exact mem_stringsOfList_of_elem hmem h1
              exact contentOf_strings heq2 h2
          · simp at h
    · simp at h

theorem extractUC_event {v : JsonValue} {c : ClaudeCommand}
    (h : extractUserCommand v = .ok (some c)) :
    ∃ s x, contentOf v = some (.str s) ∧ findUserCmdText s.data = some x := by
  rw [extractUserCommand] at h
  split at h
  · simp at h
  · split at h
    · rename_i heq1
      split at h
      · simp at h
      · rename_i cv heq2
        split at h
        · simp at h
        · split at h
          · rename_i content htru
            split at h
            · simp at h
            · rename_i cmd heqf
              rw [findUserCommand] at heqf
              rcases hx : findUserCmdText content.data with _ | x
              · rw [hx] at heqf; simp at heqf
              · exact ⟨content, x, heq2, hx⟩
          · simp at h
    · simp at h

theorem hasSub_unquote {s : String} {l : List Char}
    (h : hasSub (quotedStr s) l = true) : hasSub s.data l = true := by
  rcases (hasSub_iff _ _).mp h with ⟨p, t, hl⟩
  refine hasSub_of_parts (p ++ ['"']) ('"' :: t) ?_
  rw [hl]
  simp [quotedStr]

/-! ## Claim C4 -/

/-- C4 (amended).  For every raw line containing no backslash (so no JSON
escape can disguise a marker) that the line classifier rejects, none of the
three event extractors applied to the decoded form of the line produces an
event: the classifier never filters out such a line that would have
produced an event.  (As stated, the claim is false: a JSON escape such as
`\u0042ash` defeats the substring check — see the counterexample.) -/
theorem c4_classifier_safe (line : String) (v : JsonValue)
    (hbs : '\\' ∉ line.data)
    (hcl : lineContainsCommands line = false)
    (hp : jsonParse line = some v) :
    (∀ cc, extractBashCommand v ≠ .ok (some cc)) ∧
    (∀ tr, extractToolResult v ≠ .ok (some tr)) ∧
    (∀ uc, extractUserCommand v ≠ .ok (some uc)) := by
  rw [jsonParse] at hp
  have hcl3 : hasSub "\"Bash\"".data line.data = false ∧
      hasSub "\"tool_result\"".data line.data = false ∧
      hasSub "<bash-input>".data line.data = false := by
    rw [lineContainsCommands] at hcl
    simp only [jsIncludes, Bool.or_eq_false_iff] at hcl
    exact ⟨hcl.1.1, hcl.1.2, hcl.2⟩
  split at hp
  · rename_i v0 rest heqp
    split at hp
    · rcases hp with ⟨⟩
      obtain ⟨-, hstr⟩ := (parse_quoted (3 * line.data.length + 4)).1 line.data v rest heqp hbs
      refine ⟨?_, ?_, ?_⟩
      · intro cc hbash
        have hb := hstr "Bash" (extractBash_strings hbash)
        have e : quotedStr "Bash" = "\"Bash\"".data := by decide
        rw [e] at hb
        rw [hb] at hcl3
        simp at hcl3
      · intro tr htr
        have hb := hstr "tool_result" (extractTR_strings htr)
        have e : quotedStr "tool_result" = "\"tool_result\"".data := by decide
        rw [e] at hb
        rw [hb] at hcl3
        simp at hcl3
      · intro uc huc
        obtain ⟨s, x, hcont, hfind⟩ := extractUC_event huc
        have hmark : hasSub openTag s.data = true := findUserCmdText_marker hfind
        have hsv : s ∈ stringsOf v := contentOf_strings hcont (by
          rw [stringsOf]; exact List.mem_singleton.mpr rfl)
        have hsq : hasSub s.data line.data = true := hasSub_unquote (hstr s hsv)
        have hop : hasSub "<bash-input>".data line.data = true := by
          have : openTag = "<bash-input>".data := rfl
          rw [← this]
          exact hasSub_trans hmark hsq
        rw [hop] at hcl3
        simp at hcl3
    · simp at hp
  · simp at hp

/-- C4 is false as stated: this line spells the tool name `Bash` with the
JSON escape `\u0042`, so the classifier returns false, yet decoding it
produces a Bash command event. -/
theorem c4_counterexample :
    lineContainsCommands "\x7b\"type\":\"assistant\",\"message\":\x7b\"content\":[\x7b\"type\":\"tool_use\",\"name\":\"\\u0042ash\",\"id\":\"t1\",\"input\":\x7b\"command\":\"ls\"\x7d\x7d]\x7d\x7d" = false ∧
    jsonParse "\x7b\"type\":\"assistant\",\"message\":\x7b\"content\":[\x7b\"type\":\"tool_use\",\"name\":\"\\u0042ash\",\"id\":\"t1\",\"input\":\x7b\"command\":\"ls\"\x7d\x7d]\x7d\x7d" =
      some (.obj [("type", .str "assistant"),
        ("message", .obj [("content", .arr [.obj [("type", .str "tool_use"),
          ("name", .str "Bash"), ("id", .str "t1"),
          ("input", .obj [("command", .str "ls")])]])])]) ∧
    extractBashCommand (.obj [("type", .str "assistant"),
        ("message", .obj [("content", .arr [.obj [("type", .str "tool_use"),
          ("name", .str "Bash"), ("id", .str "t1"),
          ("input", .obj [("command", .str "ls")])]])])]) =
      .ok (some { timestamp := none, command := "ls", source := "bash",
                  description := none, projectPath := none, success := none }) := by
  refine ⟨by decide, by rfl, by rfl⟩

/-- Witness for C4 (amended) at a concrete backslash-free line the
classifier rejects. -/
theorem c4_classifier_safe_witness :
    (∀ cc, extractBashCommand (.obj [("a", .num "1")]) ≠ .ok (some cc)) ∧
    (∀ tr, extractToolResult (.obj [("a", .num "1")]) ≠ .ok (some tr)) ∧
    (∀ uc, extractUserCommand (.obj [("a", .num "1")]) ≠ .ok (some uc)) :=
  c4_classifier_safe "\x7b\"a\":1\x7d" (.obj [("a", .num "1")])
    (by decide) (by decide) (by rfl)

/-! ## Shape lemmas for the extractors -/

theorem accessProp_not_null {v : JsonValue} {k : String} {w : JsonValue}
    (h : accessProp v k = some w) : isNullV v = false := by
  cases v <;> simp [accessProp, isNullV] at h ⊢

theorem bash_ok_type {v : JsonValue} {c : ClaudeCommand}
    (h : extractBashCommand v = .ok (some c)) :
    accessProp v "type" = some (.str "assistant") := by
  rw [extractBashCommand] at h
  split at h
  · simp at h
  · split at h
    · rename_i heq1
      exact heq1
    · simp at h

theorem tuid_ok_truthy {v : JsonValue} {id : JsonValue}
    (h : extractToolUseId v = .ok (some id)) : jsTruthy id = true := by
  rw [extractToolUseId] at h
  split at h
  · simp at h
  · split at h
    · split at h
      · simp at h
      · split at h
        · simp at h
        · split at h
          · split at h
            · simp at h
            · simp at h
            · rename_i b heqf
              split at h
              · rename_i htru
                rcases ha : accessProp b "id" with _ | w
                · rw [ha] at htru; simp [truthyOpt] at htru
                · rw [ha] at h htru
                  rcases h with ⟨⟩
                  simpa [truthyOpt] using htru
              · simp at h
          · simp at h
    · simp at h

theorem assistant_only {v : JsonValue}
    (h : accessProp v "type" = some (.str "assistant")) :
    extractToolResult v = .ok none ∧ extractUserCommand v = .ok none := by
  have hnn := accessProp_not_null h
  constructor
  · rw [extractToolResult, hnn]
    simp only [Bool.false_eq_true, if_false, h]
    rfl
  · rw [extractUserCommand, hnn]
    simp only [Bool.false_eq_true, if_false, h]
    rfl

theorem user_only {v : JsonValue}
    (h : accessProp v "type" = some (.str "user")) :
    extractBashCommand v = .ok none ∧ extractToolUseId v = .ok none := by
  have hnn := accessProp_not_null h
  constructor
  · rw [extractBashCommand, hnn]
    simp only [Bool.false_eq_true, if_false, h]
    rfl
  · rw [extractToolUseId, hnn]
    simp only [Bool.false_eq_true, if_false, h]
    rfl

theorem tr_ok_shape {v : JsonValue} {p : JsonValue × JsonValue}
    (h : extractToolResult v = .ok (some p)) :
    accessProp v "type" = some (.str "user") ∧
    ∃ blocks, contentOf v = some (.arr blocks) := by
  rw [extractToolResult] at h
  split at h
  · simp at h
  · split at h
    · rename_i heq1
      refine ⟨heq1, ?_⟩
      split at h
      · simp at h
      · rename_i cv heq2
        split at h
        · simp at h
        · split at h
          · simp at h
          · rename_i blocks htru
            exact ⟨blocks, heq2⟩
          · simp at h
    · simp at h

theorem uc_ok_shape {v : JsonValue} {c : ClaudeCommand}
    (h : extractUserCommand v = .ok (some c)) :
    accessProp v "type" = some (.str "user") ∧
    ∃ s, contentOf v = some (.str s) := by
  rw [extractUserCommand] at h
  split at h
  · simp at h
  · split at h
    · rename_i heq1
      refine ⟨heq1, ?_⟩
      split at h
      · simp at h
      · rename_i cv heq2
        split at h
        · simp at h
        · split at h
          · rename_i content htru
            exact ⟨content, heq2⟩
          · simp at h
    · simp at h

theorem str_content_no_tr {v : JsonValue} {s : String}
    (hty : accessProp v "type" = some (.str "user"))
    (hc : contentOf v = some (.str s)) : extractToolResult v = .ok none := by
  rw [extractToolResult, accessProp_not_null hty]
  simp only [Bool.false_eq_true, if_false, hty, hc]
  split <;> rfl

theorem arr_content_no_uc {v : JsonValue} {blocks : List JsonValue}
    (hty : accessProp v "type" = some (.str "user"))
    (hc : contentOf v = some (.arr blocks)) : extractUserCommand v = .ok none := by
  rw [extractUserCommand, accessProp_not_null hty]
  simp only [Bool.false_eq_true, if_false, hty, hc]
  split <;> rfl

/-! ## Single-entry behavior of the correlation engine -/

theorem jsonEq_str_self (s : String) : jsonEq (.str s) (.str s) = true := by
  simp [jsonEq]

theorem jsonEq_str_cases {k : JsonValue} {s : String} (h : jsonEq k (.str s) = true) :
    k = .str s := by
  cases k <;> simp [jsonEq] at h ⊢
  exact h

theorem pe_use {st : PendingMap} {v : JsonValue} {c : ClaudeCommand} {id : JsonValue}
    (hb : extractBashCommand v = .ok (some c))
    (hid : extractToolUseId v = .ok (some id)) :
    processEntryParsed st v = (mapSet st id c, [], false) := by
  obtain ⟨htr, huc⟩ := assistant_only (bash_ok_type hb)
  rw [processEntryParsed, hb, hid, htr, huc]
  rfl

theorem pe_use_noid {st : PendingMap} {v : JsonValue} {c : ClaudeCommand}
    (hb : extractBashCommand v = .ok (some c))
    (hid : extractToolUseId v = .ok none) :
    processEntryParsed st v = (st, [withSuccess c true], false) := by
  obtain ⟨htr, huc⟩ := assistant_only (bash_ok_type hb)
  rw [processEntryParsed, hb, hid, htr, huc]
  rfl

theorem pe_result {st : PendingMap} {v : JsonValue} {tid errv : JsonValue}
    (htr : extractToolResult v = .ok (some (tid, errv))) :
    processEntryParsed st v =
      match mapGet st tid with
      | some cmd => (mapDelete st tid, [withSuccess cmd (!jsTruthy errv)], false)
      | none => (st, [], false) := by
  obtain ⟨hty, blocks, hc⟩ := tr_ok_shape htr
  obtain ⟨hbc, hid⟩ := user_only hty
  have huc := arr_content_no_uc hty hc
  rw [processEntryParsed, hbc, htr, huc]
  cases hg : mapGet st tid <;> simp [hg]

theorem pe_user {st : PendingMap} {v : JsonValue} {c : ClaudeCommand}
    (huc : extractUserCommand v = .ok (some c)) :
    processEntryParsed st v = (st, [withSuccess c true], false) := by
  obtain ⟨hty, s, hc⟩ := uc_ok_shape huc
  obtain ⟨hbc, hid⟩ := user_only hty
  have htr := str_content_no_tr hty hc
  rw [processEntryParsed, hbc, htr, huc]
  rfl

/-! ## Per-line behavior of `processLines` -/

theorem classifier_nonblank {line : String} (h : lineContainsCommands line = true) :
    (jsTrim line.data).isEmpty = false := by
  have hex : ∃ ch ∈ line.data, isJsWs ch = false := by
    rw [lineContainsCommands] at h
    rcases Bool.or_eq_true_iff.mp h with h1 | h1
    · rcases Bool.or_eq_true_iff.mp h1 with h2 | h2
      · rcases (hasSub_iff _ _).mp h2 with ⟨p, t, hl⟩
        exact ⟨'"', by rw [hl]; simp, by decide⟩
      · rcases (hasSub_iff _ _).mp h2 with ⟨p, t, hl⟩
        exact ⟨'"', by rw [hl]; simp, by decide⟩
    · rcases (hasSub_iff _ _).mp h1 with ⟨p, t, hl⟩
      exact ⟨'<', by rw [hl]; simp [List.mem_append], by decide⟩
  rcases hex with ⟨ch, hmem, hws⟩
  rcases he : (jsTrim line.data).isEmpty with _ | _
  · rfl
  · rw [List.isEmpty_iff] at he
    rw [jsTrim_eq_nil he ch hmem] at hws
    cases hws

theorem stepLine_classified {count : Nat} {st : PendingMap} {line : String} {v : JsonValue}
    (hcl : lineContainsCommands line = true)
    (hp : jsonParse line = some v)
    (hcount : ¬ count % maxPendingEntries = 0) :
    stepLine count st line =
      ((processEntryParsed st v).1, (processEntryParsed st v).2.1,
       if (processEntryParsed st v).2.2 then [count] else []) := by
  rcases hpe : processEntryParsed st v with ⟨st1, out1, bad⟩
  rw [stepLine, classifier_nonblank hcl, hcl]
  simp only [Bool.false_eq_true, if_false, Bool.not_true, processEntry, hp, hpe, hcount,
    List.append_nil]

theorem processLinesAux_append (xs : List String) : ∀ (n : Nat) (st : PendingMap)
    (ys : List String),
    processLinesAux n st (xs ++ ys) =
      ((processLinesAux (n + xs.length) (processLinesAux n st xs).1 ys).1,
       (processLinesAux n st xs).2.1 ++
         (processLinesAux (n + xs.length) (processLinesAux n st xs).1 ys).2.1,
       (processLinesAux n st xs).2.2 ++
         (processLinesAux (n + xs.length) (processLinesAux n st xs).1 ys).2.2) := by
  induction xs with
  | nil => intro n st ys; simp [processLinesAux]
  | cons l ls ih =>
    intro n st ys
    rw [List.cons_append, processLinesAux, processLinesAux]
    rcases hsl : stepLine (n + 1) st l with ⟨st1, o1, d1⟩
    simp only
    rw [ih (n + 1) st1 ys]
    simp only [List.length_cons, List.append_assoc]
    have hn : n + 1 + ls.length = n + (ls.length + 1) := by omega
    rw [hn]

theorem stepLine_checkpoint {count : Nat} {st : PendingMap} {line : String}
    (hk : count % maxPendingEntries = 0)
    (hcl : lineContainsCommands line = true) :
    (stepLine count st line).1.length ≤ maxPendingEntries := by
  rw [stepLine, classifier_nonblank hcl, hcl]
  rcases hpe : processEntry st line with ⟨st1, out1, bad⟩
  simp only [Bool.false_eq_true, if_false, Bool.not_true, hpe, hk, if_pos]
  rw [cleanupOldPendingCommands]
  split
  · simp
  · rename_i hle
    simp only [Nat.not_lt] at hle
    simpa using hle

/-! ## Key-truthiness: the table never holds a falsy identifier -/

theorem mapSet_keys {st : PendingMap} {k : JsonValue} {c : ClaudeCommand}
    {p : JsonValue × ClaudeCommand} (hp : p ∈ mapSet st k c) :
    (∃ q ∈ st, p.1 = q.1) ∨ p.1 = k := by
  induction st with
  | nil =>
    simp only [mapSet, List.mem_singleton] at hp
    exact Or.inr (by rw [hp])
  | cons q rest ih =>
    rcases q with ⟨k', c'⟩
    rw [mapSet] at hp
    split at hp
    · rcases List.mem_cons.mp hp with rfl | hm
      · exact Or.inl ⟨(k', c'), List.mem_cons_self _ _, rfl⟩
      · exact Or.inl ⟨p, List.mem_cons_of_mem _ hm, rfl⟩
    · rcases List.mem_cons.mp hp with rfl | hm
      · exact Or.inl ⟨(k', c'), List.mem_cons_self _ _, rfl⟩
      · rcases ih hm with ⟨q, hq, he⟩ | he
        · exact Or.inl ⟨q, List.mem_cons_of_mem _ hq, he⟩
        · exact Or.inr he

theorem mapDelete_subset {st : PendingMap} {k : JsonValue}
    {p : JsonValue × ClaudeCommand} (hp : p ∈ mapDelete st k) : p ∈ st := by
  induction st with
  | nil => simp [mapDelete] at hp
  | cons q rest ih =>
    rcases q with ⟨k', c'⟩
    rw [mapDelete] at hp
    split at hp
    · exact List.mem_cons_of_mem _ hp
    · rcases List.mem_cons.mp hp with rfl | hm
      · exact List.mem_cons_self _ _
      · exact List.mem_cons_of_mem _ (ih hm)

theorem pep_tail_keys {v : JsonValue} {st1 : PendingMap} (out1 : List ClaudeCommand)
    (h1 : ∀ p ∈ st1, jsTruthy p.1 = true) :
    ∀ p ∈ (match extractToolResult v with
      | .error _ => (st1, out1, true)
      | .ok tr? =>
        let (st2, out2) :=
          match tr? with
          | none => (st1, ([] : List ClaudeCommand))
          | some (tid, errv) =>
            match mapGet st1 tid with
            | some cmd => (mapDelete st1 tid, [withSuccess cmd (!jsTruthy errv)])
            | none => (st1, [])
        match extractUserCommand v with
        | .error _ => (st2, out1 ++ out2, true)
        | .ok uc? =>
          let out3 :=
            match uc? with
            | some uc => [withSuccess uc true]
            | none => []
          (st2, out1 ++ out2 ++ out3, false)).1, jsTruthy p.1 = true := by
  rcases htr : extractToolResult v with e | tr?
  · exact h1
  · rcases tr? with _ | ⟨tid, errv⟩
    · rcases huc : extractUserCommand v with e | uc? <;> exact h1
    · simp only
      rcases hg : mapGet st1 tid with _ | cmd
      · rcases huc : extractUserCommand v with e | uc? <;> exact h1
      · rcases huc : extractUserCommand v with e | uc? <;>
          exact fun p hp => h1 p (mapDelete_subset hp)

theorem pep_keys_truthy {st : PendingMap} {v : JsonValue}
    (h : ∀ p ∈ st, jsTruthy p.1 = true) :
    ∀ p ∈ (processEntryParsed st v).1, jsTruthy p.1 = true := by
  rcases hbc : extractBashCommand v with e | bc?
  · rw [processEntryParsed, hbc]; exact h
  · rcases bc? with _ | bc
    · rw [processEntryParsed, hbc]
      exact pep_tail_keys [] h
    · rcases htu : extractToolUseId v with e | id?
      · rw [processEntryParsed, hbc, htu]; exact h
      · rcases id? with _ | id
        · rw [processEntryParsed, hbc, htu]
          exact pep_tail_keys [withSuccess bc true] h
        · rw [processEntryParsed, hbc, htu]
          refine pep_tail_keys [] ?_
          intro p hp
          rcases mapSet_keys hp with ⟨q, hq, he⟩ | he
          · rw [he]; exact h q hq
          · rw [he]; exact tuid_ok_truthy htu


theorem stepLine_badparse {count : Nat} {st : PendingMap} {line : String}
    (hcl : lineContainsCommands line = true)
    (hp : jsonParse line = none)
    (hcount : ¬ count % maxPendingEntries = 0) :
    stepLine count st line = (st, [], [count]) := by
  rw [stepLine, classifier_nonblank hcl, hcl]
  simp only [Bool.false_eq_true, if_false, Bool.not_true, processEntry, hp, hcount,
    List.append_nil, if_true]

/-! ## Claim C3 -/

/-- C3 is false as stated: after the 200th line of this concrete log the
pending table holds 101 entries, because the 200th line is blank, so the
engine never reaches the periodic table check on that line. -/
theorem c3_counterexample :
    c3Lines.length = 200 ∧ 200 % maxPendingEntries = 0 ∧
    maxPendingEntries < (processLinesAux 0 [] c3Lines).1.length := by
  refine ⟨by rfl, by rfl, ?_⟩
  have h : (processLinesAux 0 [] c3Lines).1.length = 101 := by rfl
  rw [h]
  decide

/-- C3 (amended).  When the line whose 1-based index is a multiple of
N = 100 is non-blank and passes the line classifier, the engine checks the
pending table after processing it and flushes everything if the size
exceeds N, so immediately after that line the table holds at most 100
entries; every command such a cleanup flush emits has `success = true`.
(The check is skipped when the 100th line is blank or filtered out — see
the counterexample.) -/
theorem c3_bounded_cleanup (st0 : PendingMap) (pre : List String) (line : String)
    (hk : (pre.length + 1) % maxPendingEntries = 0)
    (hcl : lineContainsCommands line = true) :
    (processLinesAux 0 st0 (pre ++ [line])).1.length ≤ maxPendingEntries ∧
    (∀ m : PendingMap, ∀ cmd ∈ (cleanupOldPendingCommands m).2, cmd.success = some true) := by
  constructor
  · rw [processLinesAux_append]
    simp only
    rw [processLinesAux]
    rcases hsl : stepLine (0 + pre.length + 1) (processLinesAux 0 st0 pre).1 line
      with ⟨st1, o1, d1⟩
    simp only [processLinesAux]
    have hb := @stepLine_checkpoint (0 + pre.length + 1) ((processLinesAux 0 st0 pre).1)
      line (by simpa using hk) hcl
    rw [hsl] at hb
    exact hb
  · intro m cmd hc
    rw [cleanupOldPendingCommands] at hc
    split at hc
    · rcases List.mem_map.mp hc with ⟨p, hp, rfl⟩
      rfl
    · simp at hc

/-- Witness for C3 (amended): 99 blank lines followed by a classifier-passing
Bash tool-use line as the 100th line. -/
theorem c3_bounded_cleanup_witness :
    (processLinesAux 0 [] (List.replicate 99 "" ++ [c3UseLine 0])).1.length ≤
      maxPendingEntries ∧
    (∀ m : PendingMap, ∀ cmd ∈ (cleanupOldPendingCommands m).2, cmd.success = some true) :=
  c3_bounded_cleanup [] (List.replicate 99 "") (c3UseLine 0) (by rfl) (by rfl)

/-! ## Structural equality of JSON values is reflexive and sound -/

mutual

theorem jsonEq_refl : ∀ a : JsonValue, jsonEq a a = true
  | .null => rfl
  | .bool b => by simp [jsonEq]
  | .str s => by simp [jsonEq]
  | .num s => by simp [jsonEq]
  | .arr l => by rw [jsonEq]; exact jsonEqList_refl l
  | .obj fs => by rw [jsonEq]; exact jsonEqFields_refl fs

theorem jsonEqList_refl : ∀ l : List JsonValue, jsonEqList l l = true
  | [] => rfl
  | v :: r => by
    rw [jsonEqList, jsonEq_refl v, jsonEqList_refl r]
    rfl

theorem jsonEqFields_refl : ∀ l : List (String × JsonValue), jsonEqFields l l = true
  | [] => rfl
  | (k, v) :: r => by
    rw [jsonEqFields, jsonEq_refl v, jsonEqFields_refl r]
    simp

end

mutual

theorem jsonEq_sound : ∀ a b : JsonValue, jsonEq a b = true → a = b
  | .null, .null, _ => rfl
  | .bool a, .bool b, h => by
    rw [jsonEq] at h; rw [eq_of_beq h]
  | .str a, .str b, h => by
    rw [jsonEq] at h; rw [eq_of_beq h]
  | .num a, .num b, h => by
    rw [jsonEq] at h; rw [eq_of_beq h]
  | .arr a, .arr b, h => by
    rw [jsonEq] at h; rw [jsonEqList_sound a b h]
  | .obj a, .obj b, h => by
    rw [jsonEq] at h; rw [jsonEqFields_sound a b h]
  | .null, .bool _, h => by cases h
  | .null, .str _, h => by cases h
  | .null, .num _, h => by cases h
  | .null, .arr _, h => by cases h
  | .null, .obj _, h => by cases h
  | .bool _, .null, h => by cases h
  | .bool _, .str _, h => by cases h
  | .bool _, .num _, h => by cases h
  | .bool _, .arr _, h => by cases h
  | .bool _, .obj _, h => by cases h
  | .str _, .null, h => by cases h
  | .str _, .bool _, h => by cases h
  | .str _, .num _, h => by cases h
  | .str _, .arr _, h => by cases h
  | .str _, .obj _, h => by cases h
  | .num _, .null, h => by cases h
  | .num _, .bool _, h => by cases h
  | .num _, .str _, h => by cases h
  | .num _, .arr _, h => by cases h
  | .num _, .obj _, h => by cases h
  | .arr _, .null, h => by cases h
  | .arr _, .bool _, h => by cases h
  | .arr _, .str _, h => by cases h
  | .arr _, .num _, h => by cases h
  | .arr _, .obj _, h => by cases h
  | .obj _, .null, h => by cases h
  | .obj _, .bool _, h => by cases h
  | .obj _, .str _, h => by cases h
  | .obj _, .num _, h => by cases h
  | .obj _, .arr _, h => by cases h

theorem jsonEqList_sound : ∀ a b : List JsonValue, jsonEqList a b = true → a = b
  | [], [], _ => rfl
  | a :: as, b :: bs, h => by
    rw [jsonEqList, Bool.and_eq_true] at h
    rw [jsonEq_sound a b h.1, jsonEqList_sound as bs h.2]
  | [], _ :: _, h => by cases h
  | _ :: _, [], h => by cases h

theorem jsonEqFields_sound :
    ∀ a b : List (String × JsonValue), jsonEqFields a b = true → a = b
  | [], [], _ => rfl
  | (k1, v1) :: r1, (k2, v2) :: r2, h => by
    rw [jsonEqFields, Bool.and_eq_true, Bool.and_eq_true] at h
    rw [eq_of_beq h.1.1, jsonEq_sound v1 v2 h.1.2, jsonEqFields_sound r1 r2 h.2]
  | [], _ :: _, h => by cases h
  | _ :: _, [], h => by cases h

end

/-! ## Map lookups under foreign updates -/

theorem mapGet_set_self {st : PendingMap} {k : JsonValue} {c : ClaudeCommand} :
    mapGet (mapSet st k c) k = some c := by
  induction st with
  | nil => simp [mapSet, mapGet, jsonEq_refl k]
  | cons q rest ih =>
    rcases q with ⟨k1, e⟩
    rw [mapSet]
    split
    · rename_i he
      rw [mapGet, he]; rfl
    · rename_i he
      rw [mapGet]
      rw [Bool.not_eq_true] at he
      rw [he]
      simpa using ih

theorem mapGet_set_ne {st : PendingMap} {k' k : JsonValue} {c : ClaudeCommand}
    (h : jsonEq k' k = false) :
    mapGet (mapSet st k' c) k = mapGet st k := by
  induction st with
  | nil => simp [mapSet, mapGet, h]
  | cons q rest ih =>
    rcases q with ⟨k1, e⟩
    rw [mapSet]
    split
    · rename_i he
      have hk1 : k1 = k' := jsonEq_sound _ _ he
      subst hk1
      rw [mapGet, mapGet, h]
      simp
    · rw [mapGet, mapGet]
      split
      · rfl
      · exact ih

theorem mapGet_delete_ne {st : PendingMap} {k' k : JsonValue}
    (h : jsonEq k' k = false) :
    mapGet (mapDelete st k') k = mapGet st k := by
  induction st with
  | nil => rfl
  | cons q rest ih =>
    rcases q with ⟨k1, e⟩
    rw [mapDelete]
    split
    · rename_i he
      have hk1 : k1 = k' := jsonEq_sound _ _ he
      subst hk1
      rw [mapGet, h]
      simp
    · rw [mapGet, mapGet]
      split
      · rfl
      · exact ih

theorem mapGet_mem {st : PendingMap} {k : JsonValue} {c : ClaudeCommand}
    (h : mapGet st k = some c) : (k, c) ∈ st := by
  induction st with
  | nil => cases h
  | cons q rest ih =>
    rcases q with ⟨k1, e⟩
    rw [mapGet] at h
    split at h
    · rename_i he
      have hk1 : k1 = k := jsonEq_sound _ _ he
      subst hk1
      rw [Option.some.injEq] at h
      subst h
      exact List.mem_cons_self _ _
    · exact List.mem_cons_of_mem _ (ih h)

theorem pep_tail_mapGet {v : JsonValue} {st1 : PendingMap} (out1 : List ClaudeCommand)
    (tid : JsonValue)
    (hneu2 : ∀ tid2 errv2, extractToolResult v = .ok (some (tid2, errv2)) →
      jsonEq tid2 tid = false) :
    mapGet (match extractToolResult v with
      | .error _ => (st1, out1, true)
      | .ok tr? =>
        let (st2, out2) :=
          match tr? with
          | none => (st1, ([] : List ClaudeCommand))
          | some (tid2, errv) =>
            match mapGet st1 tid2 with
            | some cmd => (mapDelete st1 tid2, [withSuccess cmd (!jsTruthy errv)])
            | none => (st1, [])
        match extractUserCommand v with
        | .error _ => (st2, out1 ++ out2, true)
        | .ok uc? =>
          let out3 :=
            match uc? with
            | some uc => [withSuccess uc true]
            | none => []
          (st2, out1 ++ out2 ++ out3, false)).1 tid = mapGet st1 tid := by
  rcases htr : extractToolResult v with e | tr?
  · rfl
  · rcases tr? with _ | ⟨tid2, errv⟩
    · rcases huc : extractUserCommand v with e | uc? <;> simp [huc]
    · simp only
      rcases hg : mapGet st1 tid2 with _ | cmd
      · rcases huc : extractUserCommand v with e | uc? <;> simp [huc]
      · have hne := hneu2 tid2 errv htr
        rcases huc : extractUserCommand v with e | uc? <;> simp [huc] <;>
          exact mapGet_delete_ne hne

/-- Under the no-other-line-stores-or-resolves-this-identifier condition,
`processEntryParsed` neither adds nor removes the table entry keyed `tid`. -/
theorem pep_mapGet {st : PendingMap} {v : JsonValue} (tid : JsonValue)
    (hneu1 : ∀ bc id2, extractBashCommand v = .ok (some bc) →
      extractToolUseId v = .ok (some id2) → jsonEq id2 tid = false)
    (hneu2 : ∀ tid2 errv2, extractToolResult v = .ok (some (tid2, errv2)) →
      jsonEq tid2 tid = false) :
    mapGet (processEntryParsed st v).1 tid = mapGet st tid := by
  rcases hbc : extractBashCommand v with e | bc?
  · rw [processEntryParsed, hbc]
  · rcases bc? with _ | bc
    · rw [processEntryParsed, hbc]
      exact pep_tail_mapGet [] tid hneu2
    · rcases htu : extractToolUseId v with e | id?
      · rw [processEntryParsed, hbc, htu]
      · rcases id? with _ | id2
        · rw [processEntryParsed, hbc, htu]
          exact pep_tail_mapGet [withSuccess bc true] tid hneu2
        · have hne := hneu1 bc id2 hbc htu
          rw [pe_use hbc htu]
          exact mapGet_set_ne hne

/-! ## The pending entry for an untouched identifier survives processing -/

theorem processLinesAux_cons (n : Nat) (st : PendingMap) (m : String) (ms : List String) :
    processLinesAux n st (m :: ms) =
      ((processLinesAux (n + 1) (stepLine (n + 1) st m).1 ms).1,
       (stepLine (n + 1) st m).2.1 ++
         (processLinesAux (n + 1) (stepLine (n + 1) st m).1 ms).2.1,
       (stepLine (n + 1) st m).2.2 ++
         (processLinesAux (n + 1) (stepLine (n + 1) st m).1 ms).2.2) := by
  rw [processLinesAux]

/-- A checkpoint-tolerant unfolding of `stepLine` on a classified, parseable
line: when the periodic check fires but the table is within the bound, the
cleanup is a no-op. -/
theorem stepLine_classified_chk {count : Nat} {st : PendingMap} {line : String}
    {v : JsonValue}
    (hcl : lineContainsCommands line = true)
    (hp : jsonParse line = some v)
    (hchk : count % maxPendingEntries = 0 →
      (processEntryParsed st v).1.length ≤ maxPendingEntries) :
    stepLine count st line =
      ((processEntryParsed st v).1, (processEntryParsed st v).2.1,
       if (processEntryParsed st v).2.2 then [count] else []) := by
  rcases hpe : processEntryParsed st v with ⟨st1, out1, bad⟩
  rw [stepLine, classifier_nonblank hcl, hcl]
  by_cases hc : count % maxPendingEntries = 0
  · have hle : st1.length ≤ maxPendingEntries := by
      have := hchk hc
      rw [hpe] at this
      exact this
    have hclean : cleanupOldPendingCommands st1 = (st1, []) := by
      rw [cleanupOldPendingCommands, if_neg (by omega)]
    simp only [Bool.false_eq_true, if_false, Bool.not_true, processEntry, hp, hpe, hc,
      if_true, hclean, List.append_nil]
  · simp only [Bool.false_eq_true, if_false, Bool.not_true, processEntry, hp, hpe, hc,
      List.append_nil]

theorem stepLine_mapGet (tid : JsonValue) {count : Nat} {st : PendingMap} {line : String}
    (hneu : ∀ v, jsonParse line = some v →
      (∀ bc id2, extractBashCommand v = .ok (some bc) →
        extractToolUseId v = .ok (some id2) → jsonEq id2 tid = false) ∧
      (∀ tid2 errv2, extractToolResult v = .ok (some (tid2, errv2)) →
        jsonEq tid2 tid = false))
    (hchk : count % maxPendingEntries = 0 → lineContainsCommands line = true →
      (processEntry st line).1.length ≤ maxPendingEntries) :
    mapGet (stepLine count st line).1 tid = mapGet st tid := by
  rw [stepLine]
  split
  · rfl
  · split
    · rfl
    · rename_i hbl hcl
      rw [Bool.not_eq_true', Bool.not_eq_false] at hcl
      rcases hp : jsonParse line with _ | v
      · have hpe : processEntry st line = (st, [], true) := by rw [processEntry, hp]
        rw [hpe]
        simp only
        split
        · rename_i hc
          have hle : st.length ≤ maxPendingEntries := by
            have := hchk hc hcl
            rw [hpe] at this
            exact this
          rw [cleanupOldPendingCommands, if_neg (by omega)]
        · rfl
      · rcases hpp : processEntryParsed st v with ⟨st1, out1, bad⟩
        have hpe : processEntry st line = (st1, out1, bad) := by
          rw [processEntry, hp]
          exact hpp
        have hget : mapGet st1 tid = mapGet st tid := by
          have := @pep_mapGet st v tid (hneu v hp).1 (hneu v hp).2
          rw [hpp] at this
          exact this
        rw [hpe]
        simp only
        split
        · rename_i hc
          have hle : st1.length ≤ maxPendingEntries := by
            have := hchk hc hcl
            rw [hpe] at this
            exact this
          rw [cleanupOldPendingCommands, if_neg (by omega)]
          exact hget
        · exact hget

theorem stepLine_mapGet_none (tid : JsonValue) {count : Nat} {st : PendingMap}
    {line : String}
    (hg : mapGet st tid = none)
    (hneu : ∀ v, jsonParse line = some v →
      (∀ bc id2, extractBashCommand v = .ok (some bc) →
        extractToolUseId v = .ok (some id2) → jsonEq id2 tid = false) ∧
      (∀ tid2 errv2, extractToolResult v = .ok (some (tid2, errv2)) →
        jsonEq tid2 tid = false)) :
    mapGet (stepLine count st line).1 tid = none := by
  rw [stepLine]
  split
  · exact hg
  · split
    · exact hg
    · rcases hp : jsonParse line with _ | v
      · have hpe : processEntry st line = (st, [], true) := by rw [processEntry, hp]
        rw [hpe]
        simp only
        split
        · rw [cleanupOldPendingCommands]
          split
          · rfl
          · exact hg
        · exact hg
      · rcases hpp : processEntryParsed st v with ⟨st1, out1, bad⟩
        have hpe : processEntry st line = (st1, out1, bad) := by
          rw [processEntry, hp]
          exact hpp
        have hget : mapGet st1 tid = none := by
          have := @pep_mapGet st v tid (hneu v hp).1 (hneu v hp).2
          rw [hpp] at this
          rw [this]
          exact hg
        rw [hpe]
        simp only
        split
        · rw [cleanupOldPendingCommands]
          split
          · rfl
          · exact hget
        · exact hget

theorem processLinesAux_mapGet (tid : JsonValue) (c : ClaudeCommand) :
    ∀ (ms : List String) (n : Nat) (st : PendingMap),
    mapGet st tid = some c →
    (∀ l ∈ ms, ∀ v, jsonParse l = some v →
      (∀ bc id2, extractBashCommand v = .ok (some bc) →
        extractToolUseId v = .ok (some id2) → jsonEq id2 tid = false) ∧
      (∀ tid2 errv2, extractToolResult v = .ok (some (tid2, errv2)) →
        jsonEq tid2 tid = false)) →
    (∀ k, (hk : k < ms.length) → (n + 1 + k) % maxPendingEntries = 0 →
      lineContainsCommands (ms.get ⟨k, hk⟩) = true →
      (processEntry (processLinesAux n st (ms.take k)).1
        (ms.get ⟨k, hk⟩)).1.length ≤ maxPendingEntries) →
    mapGet (processLinesAux n st ms).1 tid = some c
  | [], n, st, hg, _, _ => hg
  | m :: ms', n, st, hg, hneu, hchk => by
    rw [processLinesAux_cons]
    have hchk0 : (n + 1) % maxPendingEntries = 0 → lineContainsCommands m = true →
        (processEntry st m).1.length ≤ maxPendingEntries := by
      intro hc hcl
      have := hchk 0 (by simp) (by simpa using hc) (by exact hcl)
      simpa [processLinesAux] using this
    have hst1 := stepLine_mapGet tid (hneu m (List.mem_cons_self _ _)) hchk0
    rw [hg] at hst1
    refine processLinesAux_mapGet tid c ms' (n + 1) (stepLine (n + 1) st m).1 hst1
      (fun l hl => hneu l (List.mem_cons_of_mem _ hl)) ?_
    intro k hk hc hcl
    have hidx : n + 1 + (k + 1) = n + 1 + 1 + k := by omega
    have htake : (processLinesAux n st ((m :: ms').take (k + 1))).1 =
        (processLinesAux (n + 1) (stepLine (n + 1) st m).1 (ms'.take k)).1 := by
      rw [List.take_succ_cons, processLinesAux_cons]
    have := hchk (k + 1) (by simpa using hk) (by rw [hidx]; exact hc) (by exact hcl)
    rw [htake] at this
    exact this

theorem processLinesAux_mapGet_none (tid : JsonValue) :
    ∀ (ms : List String) (n : Nat) (st : PendingMap),
    mapGet st tid = none →
    (∀ l ∈ ms, ∀ v, jsonParse l = some v →
      (∀ bc id2, extractBashCommand v = .ok (some bc) →
        extractToolUseId v = .ok (some id2) → jsonEq id2 tid = false) ∧
      (∀ tid2 errv2, extractToolResult v = .ok (some (tid2, errv2)) →
        jsonEq tid2 tid = false)) →
    mapGet (processLinesAux n st ms).1 tid = none
  | [], n, st, hg, _ => hg
  | m :: ms', n, st, hg, hneu => by
    rw [processLinesAux_cons]
    exact processLinesAux_mapGet_none tid ms' (n + 1) (stepLine (n + 1) st m).1
      (stepLine_mapGet_none tid hg (hneu m (List.mem_cons_self _ _)))
      (fun l hl => hneu l (List.mem_cons_of_mem _ hl))

/-! ## An identifier is keyed at most once in the table -/

theorem countP_mapSet_ne {st : PendingMap} {k' tid : JsonValue} {c : ClaudeCommand}
    (h : jsonEq k' tid = false) :
    (mapSet st k' c).countP (fun p => jsonEq p.1 tid) =
      st.countP (fun p => jsonEq p.1 tid) := by
  induction st with
  | nil => simp [mapSet, List.countP_cons, h]
  | cons q rest ih =>
    rcases q with ⟨k1, e⟩
    rw [mapSet]
    split
    · simp [List.countP_cons]
    · simp only [List.countP_cons]
      rw [ih]

theorem countP_mapDelete_ne {st : PendingMap} {k' tid : JsonValue}
    (h : jsonEq k' tid = false) :
    (mapDelete st k').countP (fun p => jsonEq p.1 tid) =
      st.countP (fun p => jsonEq p.1 tid) := by
  induction st with
  | nil => rfl
  | cons q rest ih =>
    rcases q with ⟨k1, e⟩
    rw [mapDelete]
    split
    · rename_i he
      have hk1 : k1 = k' := jsonEq_sound _ _ he
      subst hk1
      simp [List.countP_cons, h]
    · simp only [List.countP_cons]
      rw [ih]

theorem countP_zero_of_mapGet_none {st : PendingMap} {tid : JsonValue}
    (h : mapGet st tid = none) :
    st.countP (fun p => jsonEq p.1 tid) = 0 := by
  induction st with
  | nil => rfl
  | cons q rest ih =>
    rcases q with ⟨k1, e⟩
    rw [mapGet] at h
    split at h
    · cases h
    · rename_i he
      rw [Bool.not_eq_true] at he
      simp [List.countP_cons, he, ih h]

theorem countP_mapSet_tid {st : PendingMap} {tid : JsonValue} {c : ClaudeCommand}
    (h : mapGet st tid = none) :
    (mapSet st tid c).countP (fun p => jsonEq p.1 tid) = 1 := by
  induction st with
  | nil => simp [mapSet, List.countP_cons, jsonEq_refl tid]
  | cons q rest ih =>
    rcases q with ⟨k1, e⟩
    rw [mapGet] at h
    split at h
    · cases h
    · rename_i he
      rw [Bool.not_eq_true] at he
      rw [mapSet]
      split
      · rename_i he2
        rw [he] at he2
        cases he2
      · simp only [List.countP_cons, he]
        rw [ih h]
        simp

theorem mapGet_none_of_countP_zero {st : PendingMap} {tid : JsonValue}
    (h : st.countP (fun p => jsonEq p.1 tid) = 0) :
    mapGet st tid = none := by
  induction st with
  | nil => rfl
  | cons q rest ih =>
    rcases q with ⟨k1, e⟩
    rw [List.countP_cons] at h
    rcases hke : jsonEq k1 tid with _ | _
    · rw [mapGet, hke]
      simp only [Bool.false_eq_true, if_false]
      rw [hke] at h
      simp only [Bool.false_eq_true, if_false, Nat.add_zero] at h
      exact ih h
    · rw [hke] at h
      simp at h

theorem mapGet_delete_self {st : PendingMap} {tid : JsonValue} {c : ClaudeCommand}
    (hcnt : st.countP (fun p => jsonEq p.1 tid) ≤ 1)
    (hg : mapGet st tid = some c) :
    mapGet (mapDelete st tid) tid = none := by
  induction st with
  | nil => cases hg
  | cons q rest ih =>
    rcases q with ⟨k1, e⟩
    rw [List.countP_cons] at hcnt
    rw [mapGet] at hg
    rw [mapDelete]
    rcases hke : jsonEq k1 tid with _ | _
    · rw [if_neg (by simp [hke])]
      rw [hke] at hg hcnt
      simp only [Bool.false_eq_true, if_false] at hg
      simp only [Bool.false_eq_true, if_false, Nat.add_zero] at hcnt
      rw [mapGet, hke]
      simp only [Bool.false_eq_true, if_false]
      exact ih hcnt hg
    · rw [if_pos (by simp [hke])]
      rw [hke] at hcnt
      simp only [if_true, if_pos] at hcnt
      exact mapGet_none_of_countP_zero (by omega)

theorem pep_tail_countP {v : JsonValue} {st1 : PendingMap} (out1 : List ClaudeCommand)
    (tid : JsonValue)
    (hneu2 : ∀ tid2 errv2, extractToolResult v = .ok (some (tid2, errv2)) →
      jsonEq tid2 tid = false) :
    ((match extractToolResult v with
      | .error _ => (st1, out1, true)
      | .ok tr? =>
        let (st2, out2) :=
          match tr? with
          | none => (st1, ([] : List ClaudeCommand))
          | some (tid2, errv) =>
            match mapGet st1 tid2 with
            | some cmd => (mapDelete st1 tid2, [withSuccess cmd (!jsTruthy errv)])
            | none => (st1, [])
        match extractUserCommand v with
        | .error _ => (st2, out1 ++ out2, true)
        | .ok uc? =>
          let out3 :=
            match uc? with
            | some uc => [withSuccess uc true]
            | none => []
          (st2, out1 ++ out2 ++ out3, false) :
        PendingMap × List ClaudeCommand × Bool)).1.countP (fun p => jsonEq p.1 tid) =
      st1.countP (fun p => jsonEq p.1 tid) := by
  rcases htr : extractToolResult v with e | tr?
  · rfl
  · rcases tr? with _ | ⟨tid2, errv⟩
    · rcases huc : extractUserCommand v with e | uc? <;> simp [huc]
    · simp only
      rcases hg : mapGet st1 tid2 with _ | cmd
      · rcases huc : extractUserCommand v with e | uc? <;> simp [huc]
      · have hne := hneu2 tid2 errv htr
        rcases huc : extractUserCommand v with e | uc? <;> simp [huc] <;>
          exact countP_mapDelete_ne hne

theorem pep_countP {st : PendingMap} {v : JsonValue} (tid : JsonValue)
    (hneu1 : ∀ bc id2, extractBashCommand v = .ok (some bc) →
      extractToolUseId v = .ok (some id2) → jsonEq id2 tid = false)
    (hneu2 : ∀ tid2 errv2, extractToolResult v = .ok (some (tid2, errv2)) →
      jsonEq tid2 tid = false) :
    (processEntryParsed st v).1.countP (fun p => jsonEq p.1 tid) =
      st.countP (fun p => jsonEq p.1 tid) := by
  rcases hbc : extractBashCommand v with e | bc?
  · rw [processEntryParsed, hbc]
  · rcases bc? with _ | bc
    · rw [processEntryParsed, hbc]
      exact pep_tail_countP [] tid hneu2
    · rcases htu : extractToolUseId v with e | id?
      · rw [processEntryParsed, hbc, htu]
      · rcases id? with _ | id2
        · rw [processEntryParsed, hbc, htu]
          exact pep_tail_countP [withSuccess bc true] tid hneu2
        · have hne := hneu1 bc id2 hbc htu
          rw [pe_use hbc htu]
          exact countP_mapSet_ne hne

theorem stepLine_countP (tid : JsonValue) {count : Nat} {st : PendingMap} {line : String}
    (hneu : ∀ v, jsonParse line = some v →
      (∀ bc id2, extractBashCommand v = .ok (some bc) →
        extractToolUseId v = .ok (some id2) → jsonEq id2 tid = false) ∧
      (∀ tid2 errv2, extractToolResult v = .ok (some (tid2, errv2)) →
        jsonEq tid2 tid = false))
    (hchk : count % maxPendingEntries = 0 → lineContainsCommands line = true →
      (processEntry st line).1.length ≤ maxPendingEntries) :
    (stepLine count st line).1.countP (fun p => jsonEq p.1 tid) =
      st.countP (fun p => jsonEq p.1 tid) := by
  rw [stepLine]
  split
  · rfl
  · split
    · rfl
    · rename_i hbl hcl
      rw [Bool.not_eq_true', Bool.not_eq_false] at hcl
      rcases hp : jsonParse line with _ | v
      · have hpe : processEntry st line = (st, [], true) := by rw [processEntry, hp]
        rw [hpe]
        simp only
        split
        · rename_i hc
          have hle : st.length ≤ maxPendingEntries := by
            have := hchk hc hcl
            rw [hpe] at this
            exact this
          rw [cleanupOldPendingCommands, if_neg (by omega)]
        · rfl
      · rcases hpp : processEntryParsed st v with ⟨st1, out1, bad⟩
        have hpe : processEntry st line = (st1, out1, bad) := by
          rw [processEntry, hp]
          exact hpp
        have hget : st1.countP (fun p => jsonEq p.1 tid) =
            st.countP (fun p => jsonEq p.1 tid) := by
          have := @pep_countP st v tid (hneu v hp).1 (hneu v hp).2
          rw [hpp] at this
          exact this
        rw [hpe]
        simp only
        split
        · rename_i hc
          have hle : st1.length ≤ maxPendingEntries := by
            have := hchk hc hcl
            rw [hpe] at this
            exact this
          rw [cleanupOldPendingCommands, if_neg (by omega)]
          exact hget
        · exact hget

theorem processLinesAux_countP (tid : JsonValue) :
    ∀ (ms : List String) (n : Nat) (st : PendingMap),
    (∀ l ∈ ms, ∀ v, jsonParse l = some v →
      (∀ bc id2, extractBashCommand v = .ok (some bc) →
        extractToolUseId v = .ok (some id2) → jsonEq id2 tid = false) ∧
      (∀ tid2 errv2, extractToolResult v = .ok (some (tid2, errv2)) →
        jsonEq tid2 tid = false)) →
    (∀ k, (hk : k < ms.length) → (n + 1 + k) % maxPendingEntries = 0 →
      lineContainsCommands (ms.get ⟨k, hk⟩) = true →
      (processEntry (processLinesAux n st (ms.take k)).1
        (ms.get ⟨k, hk⟩)).1.length ≤ maxPendingEntries) →
    (processLinesAux n st ms).1.countP (fun p => jsonEq p.1 tid) =
      st.countP (fun p => jsonEq p.1 tid)
  | [], n, st, _, _ => rfl
  | m :: ms', n, st, hneu, hchk => by
    rw [processLinesAux_cons]
    have hchk0 : (n + 1) % maxPendingEntries = 0 → lineContainsCommands m = true →
        (processEntry st m).1.length ≤ maxPendingEntries := by
      intro hc hcl
      have := hchk 0 (by simp) (by simpa using hc) (by exact hcl)
      simpa [processLinesAux] using this
    have hst1 := stepLine_countP tid (hneu m (List.mem_cons_self _ _)) hchk0
    rw [← hst1]
    refine processLinesAux_countP tid ms' (n + 1) (stepLine (n + 1) st m).1
      (fun l hl => hneu l (List.mem_cons_of_mem _ hl)) ?_
    intro k hk hc hcl
    have hidx : n + 1 + (k + 1) = n + 1 + 1 + k := by omega
    have htake : (processLinesAux n st ((m :: ms').take (k + 1))).1 =
        (processLinesAux (n + 1) (stepLine (n + 1) st m).1 (ms'.take k)).1 := by
      rw [List.take_succ_cons, processLinesAux_cons]
    have := hchk (k + 1) (by simpa using hk) (by rw [hidx]; exact hc) (by exact hcl)
    rw [htake] at this
    exact this

/-! ## Claim C1 -/

theorem mapGet_single {i : String} {c : ClaudeCommand} :
    mapGet [(.str i, c)] (.str i) = some c := by
  rw [mapGet, jsonEq_str_self]
  rfl

theorem mapDelete_single {i : String} {c : ClaudeCommand} :
    mapDelete [(.str i, c)] (.str i) = [] := by
  rw [mapDelete, jsonEq_str_self]
  rfl

/-- C1 (amended).  For a well-formed Bash tool-use entry and a matching
tool-result entry (same truthy tool-use identifier) on any two lines of one
file, with arbitrary other lines around and between them, none of which
stores or resolves that identifier, and with no periodic cleanup flush
emptying the table while the pair is pending: in use-before-result order
the result line emits exactly one command for that identifier, with
`success = !is_error`, and removes its entry from the table, so neither
the remaining lines nor the end-of-file flush can emit it again; in
result-before-use order the early result is silently dropped (no emission,
no diagnostic, no state change) and the command is instead left pending
until the end-of-file flush emits it with `success = true`.  (The original
"in either order" claim is false — see the counterexample.) -/
theorem c1_pair_correlation
    (pre mid post : List String) (lu lr : String)
    (e1 e2 : JsonValue) (c : ClaudeCommand) (tid errv : JsonValue)
    (stP stM stF stM2 stF2 : PendingMap)
    (h1 : jsonParse lu = some e1) (hc1 : lineContainsCommands lu = true)
    (hb : extractBashCommand e1 = .ok (some c))
    (hid : extractToolUseId e1 = .ok (some tid))
    (h2 : jsonParse lr = some e2) (hc2 : lineContainsCommands lr = true)
    (htr : extractToolResult e2 = .ok (some (tid, errv)))
    (hneu : ∀ l, l ∈ pre ∨ l ∈ mid ∨ l ∈ post → ∀ v, jsonParse l = some v →
      (∀ bc id2, extractBashCommand v = .ok (some bc) →
        extractToolUseId v = .ok (some id2) → jsonEq id2 tid = false) ∧
      (∀ tid2 errv2, extractToolResult v = .ok (some (tid2, errv2)) →
        jsonEq tid2 tid = false))
    (hstP : stP = (processLinesAux 0 [] pre).1)
    (hstM : stM = (processLinesAux (pre.length + 1) (mapSet stP tid c) mid).1)
    (hstF : stF =
      (processLinesAux (pre.length + 1 + mid.length + 1) (mapDelete stM tid) post).1)
    (hstM2 : stM2 = (processLinesAux (pre.length + 1) stP mid).1)
    (hstF2 : stF2 =
      (processLinesAux (pre.length + 1 + mid.length + 1) (mapSet stM2 tid c) post).1)
    (hchkU : (pre.length + 1) % maxPendingEntries = 0 →
      (processEntry stP lu).1.length ≤ maxPendingEntries)
    (hchkM : ∀ k, (hk : k < mid.length) →
      (pre.length + 1 + 1 + k) % maxPendingEntries = 0 →
      lineContainsCommands (mid.get ⟨k, hk⟩) = true →
      (processEntry (processLinesAux (pre.length + 1) (mapSet stP tid c) (mid.take k)).1
        (mid.get ⟨k, hk⟩)).1.length ≤ maxPendingEntries)
    (hchkR : (pre.length + 1 + mid.length + 1) % maxPendingEntries = 0 →
      (processEntry stM lr).1.length ≤ maxPendingEntries)
    (hchkR2 : (pre.length + 1) % maxPendingEntries = 0 →
      (processEntry stP lr).1.length ≤ maxPendingEntries)
    (hchkU2 : (pre.length + 1 + mid.length + 1) % maxPendingEntries = 0 →
      (processEntry stM2 lu).1.length ≤ maxPendingEntries)
    (hchkP2 : ∀ k, (hk : k < post.length) →
      (pre.length + 1 + mid.length + 1 + 1 + k) % maxPendingEntries = 0 →
      lineContainsCommands (post.get ⟨k, hk⟩) = true →
      (processEntry
        (processLinesAux (pre.length + 1 + mid.length + 1) (mapSet stM2 tid c)
          (post.take k)).1
        (post.get ⟨k, hk⟩)).1.length ≤ maxPendingEntries) :
    (mapGet stM tid = some c ∧
     stepLine (pre.length + 1 + mid.length + 1) stM lr =
       (mapDelete stM tid, [withSuccess c (!jsTruthy errv)], []) ∧
     mapGet (mapDelete stM tid) tid = none ∧
     mapGet stF tid = none ∧
     createFileStream [] (pre ++ lu :: (mid ++ lr :: post)) =
       ([],
        (processLinesAux 0 [] pre).2.1 ++
          ((processLinesAux (pre.length + 1) (mapSet stP tid c) mid).2.1 ++
            (withSuccess c (!jsTruthy errv) ::
              ((processLinesAux (pre.length + 1 + mid.length + 1) (mapDelete stM tid)
                  post).2.1 ++
                flushOutputs stF))),
        (processLinesAux 0 [] pre).2.2 ++
          ((processLinesAux (pre.length + 1) (mapSet stP tid c) mid).2.2 ++
            (processLinesAux (pre.length + 1 + mid.length + 1) (mapDelete stM tid)
              post).2.2))) ∧
    (stepLine (pre.length + 1) stP lr = (stP, [], []) ∧
     mapGet stM2 tid = none ∧
     stepLine (pre.length + 1 + mid.length + 1) stM2 lu =
       (mapSet stM2 tid c, [], []) ∧
     mapGet stF2 tid = some c ∧
     withSuccess c true ∈ flushOutputs stF2 ∧
     createFileStream [] (pre ++ lr :: (mid ++ lu :: post)) =
       ([],
        (processLinesAux 0 [] pre).2.1 ++
          ((processLinesAux (pre.length + 1) stP mid).2.1 ++
            ((processLinesAux (pre.length + 1 + mid.length + 1) (mapSet stM2 tid c)
                post).2.1 ++
              flushOutputs stF2)),
        (processLinesAux 0 [] pre).2.2 ++
          ((processLinesAux (pre.length + 1) stP mid).2.2 ++
            (processLinesAux (pre.length + 1 + mid.length + 1) (mapSet stM2 tid c)
              post).2.2))) := by
  have hneuPre : ∀ l ∈ pre, ∀ v, jsonParse l = some v →
      (∀ bc id2, extractBashCommand v = .ok (some bc) →
        extractToolUseId v = .ok (some id2) → jsonEq id2 tid = false) ∧
      (∀ tid2 errv2, extractToolResult v = .ok (some (tid2, errv2)) →
        jsonEq tid2 tid = false) := fun l hl => hneu l (Or.inl hl)
  have hneuMid : ∀ l ∈ mid, ∀ v, jsonParse l = some v →
      (∀ bc id2, extractBashCommand v = .ok (some bc) →
        extractToolUseId v = .ok (some id2) → jsonEq id2 tid = false) ∧
      (∀ tid2 errv2, extractToolResult v = .ok (some (tid2, errv2)) →
        jsonEq tid2 tid = false) := fun l hl => hneu l (Or.inr (Or.inl hl))
  have hneuPost : ∀ l ∈ post, ∀ v, jsonParse l = some v →
      (∀ bc id2, extractBashCommand v = .ok (some bc) →
        extractToolUseId v = .ok (some id2) → jsonEq id2 tid = false) ∧
      (∀ tid2 errv2, extractToolResult v = .ok (some (tid2, errv2)) →
        jsonEq tid2 tid = false) := fun l hl => hneu l (Or.inr (Or.inr hl))
  -- no entry for the identifier exists before the pair's first line
  have hgP : mapGet stP tid = none := by
    rw [hstP]
    exact processLinesAux_mapGet_none tid pre 0 [] rfl hneuPre
  have hcntP : stP.countP (fun p => jsonEq p.1 tid) = 0 :=
    countP_zero_of_mapGet_none hgP
  -- ## use-before-result order
  have hA : mapGet stM tid = some c ∧
      stepLine (pre.length + 1 + mid.length + 1) stM lr =
        (mapDelete stM tid, [withSuccess c (!jsTruthy errv)], []) ∧
      mapGet (mapDelete stM tid) tid = none ∧
      mapGet stF tid = none ∧
      createFileStream [] (pre ++ lu :: (mid ++ lr :: post)) =
        ([],
         (processLinesAux 0 [] pre).2.1 ++
           ((processLinesAux (pre.length + 1) (mapSet stP tid c) mid).2.1 ++
             (withSuccess c (!jsTruthy errv) ::
               ((processLinesAux (pre.length + 1 + mid.length + 1) (mapDelete stM tid)
                   post).2.1 ++
                 flushOutputs stF))),
         (processLinesAux 0 [] pre).2.2 ++
           ((processLinesAux (pre.length + 1) (mapSet stP tid c) mid).2.2 ++
             (processLinesAux (pre.length + 1 + mid.length + 1) (mapDelete stM tid)
               post).2.2)) := by
    have hstepU : stepLine (pre.length + 1) stP lu = (mapSet stP tid c, [], []) := by
      have hchkA : (pre.length + 1) % maxPendingEntries = 0 →
          (processEntryParsed stP e1).1.length ≤ maxPendingEntries := by
        intro hc
        have := hchkU hc
        rw [processEntry, h1] at this
        exact this
      rw [stepLine_classified_chk hc1 h1 hchkA, pe_use hb hid]
      rfl
    have hgM : mapGet stM tid = some c := by
      rw [hstM]
      exact processLinesAux_mapGet tid c mid (pre.length + 1) (mapSet stP tid c)
        mapGet_set_self hneuMid hchkM
    have hcntM : stM.countP (fun p => jsonEq p.1 tid) = 1 := by
      rw [hstM]
      rw [processLinesAux_countP tid mid (pre.length + 1) (mapSet stP tid c)
        hneuMid hchkM]
      exact countP_mapSet_tid hgP
    have hgD : mapGet (mapDelete stM tid) tid = none :=
      mapGet_delete_self (by omega) hgM
    have hstepR : stepLine (pre.length + 1 + mid.length + 1) stM lr =
        (mapDelete stM tid, [withSuccess c (!jsTruthy errv)], []) := by
      have hchkA : (pre.length + 1 + mid.length + 1) % maxPendingEntries = 0 →
          (processEntryParsed stM e2).1.length ≤ maxPendingEntries := by
        intro hc
        have := hchkR hc
        rw [processEntry, h2] at this
        exact this
      rw [stepLine_classified_chk hc2 h2 hchkA, pe_result htr, hgM]
      rfl
    have hgF : mapGet stF tid = none := by
      rw [hstF]
      exact processLinesAux_mapGet_none tid post (pre.length + 1 + mid.length + 1)
        (mapDelete stM tid) hgD hneuPost
    refine ⟨hgM, hstepR, hgD, hgF, ?_⟩
    rw [createFileStream, processLinesAux_append, Nat.zero_add, ← hstP,
      processLinesAux_cons, hstepU, processLinesAux_append]
    simp only [Nat.add_zero, List.nil_append]
    rw [← hstM]
    have hcnt2 : pre.length + 1 + mid.length = pre.length + 1 + mid.length := rfl
    rw [processLinesAux_cons, hstepR]
    simp only [List.nil_append, ← hstF]
    simp only [List.append_assoc, List.cons_append, List.nil_append]
  -- ## result-before-use order
  have hB : stepLine (pre.length + 1) stP lr = (stP, [], []) ∧
      mapGet stM2 tid = none ∧
      stepLine (pre.length + 1 + mid.length + 1) stM2 lu =
        (mapSet stM2 tid c, [], []) ∧
      mapGet stF2 tid = some c ∧
      withSuccess c true ∈ flushOutputs stF2 ∧
      createFileStream [] (pre ++ lr :: (mid ++ lu :: post)) =
        ([],
         (processLinesAux 0 [] pre).2.1 ++
           ((processLinesAux (pre.length + 1) stP mid).2.1 ++
             ((processLinesAux (pre.length + 1 + mid.length + 1) (mapSet stM2 tid c)
                 post).2.1 ++
               flushOutputs stF2)),
         (processLinesAux 0 [] pre).2.2 ++
           ((processLinesAux (pre.length + 1) stP mid).2.2 ++
             (processLinesAux (pre.length + 1 + mid.length + 1) (mapSet stM2 tid c)
               post).2.2)) := by
    have hstepR2 : stepLine (pre.length + 1) stP lr = (stP, [], []) := by
      have hchkA : (pre.length + 1) % maxPendingEntries = 0 →
          (processEntryParsed stP e2).1.length ≤ maxPendingEntries := by
        intro hc
        have := hchkR2 hc
        rw [processEntry, h2] at this
        exact this
      rw [stepLine_classified_chk hc2 h2 hchkA, pe_result htr, hgP]
      rfl
    have hgM2 : mapGet stM2 tid = none := by
      rw [hstM2]
      exact processLinesAux_mapGet_none tid mid (pre.length + 1) stP hgP hneuMid
    have hstepU2 : stepLine (pre.length + 1 + mid.length + 1) stM2 lu =
        (mapSet stM2 tid c, [], []) := by
      have hchkA : (pre.length + 1 + mid.length + 1) % maxPendingEntries = 0 →
          (processEntryParsed stM2 e1).1.length ≤ maxPendingEntries := by
        intro hc
        have := hchkU2 hc
        rw [processEntry, h1] at this
        exact this
      rw [stepLine_classified_chk hc1 h1 hchkA, pe_use hb hid]
      rfl
    have hgF2 : mapGet stF2 tid = some c := by
      rw [hstF2]
      exact processLinesAux_mapGet tid c post (pre.length + 1 + mid.length + 1)
        (mapSet stM2 tid c) mapGet_set_self hneuPost hchkP2
    have hmem : withSuccess c true ∈ flushOutputs stF2 := by
      rw [flushOutputs]
      exact List.mem_map_of_mem _ (mapGet_mem hgF2)
    refine ⟨hstepR2, hgM2, hstepU2, hgF2, hmem, ?_⟩
    rw [createFileStream, processLinesAux_append, Nat.zero_add, ← hstP,
      processLinesAux_cons, hstepR2, processLinesAux_append]
    simp only [Nat.add_zero, List.nil_append]
    rw [← hstM2]
    rw [processLinesAux_cons, hstepU2]
    simp only [List.nil_append, ← hstF2]
    simp only [List.append_assoc, List.cons_append, List.nil_append]
  exact ⟨hA, hB⟩

/-- C1 is false as stated: with the tool-result line (is_error = true)
before the tool-use line, the result is dropped and the end-of-file flush
emits the command with `success = true`, not `!is_error = false`. -/
theorem c1_counterexample :
    extractToolResult (.obj [("type", .str "user"),
        ("message", .obj [("content", .arr [.obj [("type", .str "tool_result"),
          ("tool_use_id", .str "t1"), ("is_error", .bool true)]])])]) =
      .ok (some (.str "t1", .bool true)) ∧
    jsTruthy (.bool true) = true ∧
    createFileStream []
      ["\x7b\"type\":\"user\",\"message\":\x7b\"content\":[\x7b\"type\":\"tool_result\",\"tool_use_id\":\"t1\",\"is_error\":true\x7d]\x7d\x7d",
       "\x7b\"type\":\"assistant\",\"message\":\x7b\"content\":[\x7b\"type\":\"tool_use\",\"name\":\"Bash\",\"id\":\"t1\",\"input\":\x7b\"command\":\"ls\"\x7d\x7d]\x7d\x7d"] =
      ([], [{ timestamp := none, command := "ls", source := "bash",
              description := none, projectPath := none, success := some true }], []) :=
  ⟨rfl, rfl, rfl⟩

/-- Witness for C1 (amended) on a concrete five-line file in both orders:
a blank line, the pair, an unrelated Bash tool use between the pair's
lines, and that unrelated use's own result after them. -/
theorem c1_pair_correlation_witness :
    createFileStream []
      ["",
       "\x7b\"type\":\"assistant\",\"message\":\x7b\"content\":[\x7b\"type\":\"tool_use\",\"name\":\"Bash\",\"id\":\"t1\",\"input\":\x7b\"command\":\"ls\"\x7d\x7d]\x7d\x7d",
       "\x7b\"type\":\"assistant\",\"message\":\x7b\"content\":[\x7b\"type\":\"tool_use\",\"name\":\"Bash\",\"id\":\"t2\",\"input\":\x7b\"command\":\"pwd\"\x7d\x7d]\x7d\x7d",
       "\x7b\"type\":\"user\",\"message\":\x7b\"content\":[\x7b\"type\":\"tool_result\",\"tool_use_id\":\"t1\",\"is_error\":true\x7d]\x7d\x7d",
       "\x7b\"type\":\"user\",\"message\":\x7b\"content\":[\x7b\"type\":\"tool_result\",\"tool_use_id\":\"t2\",\"is_error\":false\x7d]\x7d\x7d"] =
      ([],
       [withSuccess
         { timestamp := none, command := "ls", source := "bash", description := none,
           projectPath := none, success := none } false,
        withSuccess
         { timestamp := none, command := "pwd", source := "bash", description := none,
           projectPath := none, success := none } true],
       []) ∧
    createFileStream []
      ["",
       "\x7b\"type\":\"user\",\"message\":\x7b\"content\":[\x7b\"type\":\"tool_result\",\"tool_use_id\":\"t1\",\"is_error\":true\x7d]\x7d\x7d",
       "\x7b\"type\":\"assistant\",\"message\":\x7b\"content\":[\x7b\"type\":\"tool_use\",\"name\":\"Bash\",\"id\":\"t2\",\"input\":\x7b\"command\":\"pwd\"\x7d\x7d]\x7d\x7d",
       "\x7b\"type\":\"assistant\",\"message\":\x7b\"content\":[\x7b\"type\":\"tool_use\",\"name\":\"Bash\",\"id\":\"t1\",\"input\":\x7b\"command\":\"ls\"\x7d\x7d]\x7d\x7d",
       "\x7b\"type\":\"user\",\"message\":\x7b\"content\":[\x7b\"type\":\"tool_result\",\"tool_use_id\":\"t2\",\"is_error\":false\x7d]\x7d\x7d"] =
      ([],
       [withSuccess
         { timestamp := none, command := "pwd", source := "bash", description := none,
           projectPath := none, success := none } true,
        withSuccess
         { timestamp := none, command := "ls", source := "bash", description := none,
           projectPath := none, success := none } true],
       []) := by
  have h := c1_pair_correlation
    [""]
    ["\x7b\"type\":\"assistant\",\"message\":\x7b\"content\":[\x7b\"type\":\"tool_use\",\"name\":\"Bash\",\"id\":\"t2\",\"input\":\x7b\"command\":\"pwd\"\x7d\x7d]\x7d\x7d"]
    ["\x7b\"type\":\"user\",\"message\":\x7b\"content\":[\x7b\"type\":\"tool_result\",\"tool_use_id\":\"t2\",\"is_error\":false\x7d]\x7d\x7d"]
    "\x7b\"type\":\"assistant\",\"message\":\x7b\"content\":[\x7b\"type\":\"tool_use\",\"name\":\"Bash\",\"id\":\"t1\",\"input\":\x7b\"command\":\"ls\"\x7d\x7d]\x7d\x7d"
    "\x7b\"type\":\"user\",\"message\":\x7b\"content\":[\x7b\"type\":\"tool_result\",\"tool_use_id\":\"t1\",\"is_error\":true\x7d]\x7d\x7d"
    (.obj [("type", .str "assistant"),
      ("message", .obj [("content", .arr [.obj [("type", .str "tool_use"),
        ("name", .str "Bash"), ("id", .str "t1"),
        ("input", .obj [("command", .str "ls")])]])])])
    (.obj [("type", .str "user"),
      ("message", .obj [("content", .arr [.obj [("type", .str "tool_result"),
        ("tool_use_id", .str "t1"), ("is_error", .bool true)]])])])
    { timestamp := none, command := "ls", source := "bash", description := none,
      projectPath := none, success := none }
    (.str "t1") (.bool true)
    []
    [(.str "t1",
      { timestamp := none, command := "ls", source := "bash", description := none,
        projectPath := none, success := none }),
     (.str "t2",
      { timestamp := none, command := "pwd", source := "bash", description := none,
        projectPath := none, success := none })]
    []
    [(.str "t2",
      { timestamp := none, command := "pwd", source := "bash", description := none,
        projectPath := none, success := none })]
    [(.str "t1",
      { timestamp := none, command := "ls", source := "bash", description := none,
        projectPath := none, success := none })]
    rfl rfl rfl rfl rfl rfl rfl
    ?_ rfl rfl rfl rfl rfl ?_ ?_ ?_ ?_ ?_ ?_
  · exact ⟨h.1.2.2.2.2, h.2.2.2.2.2.2⟩
  · intro l hl v hv
    rcases hl with hl | hl | hl <;> rw [List.mem_singleton] at hl <;> subst hl
    · rw [show jsonParse "" = none from rfl] at hv
      cases hv
    · rw [show jsonParse
          "\x7b\"type\":\"assistant\",\"message\":\x7b\"content\":[\x7b\"type\":\"tool_use\",\"name\":\"Bash\",\"id\":\"t2\",\"input\":\x7b\"command\":\"pwd\"\x7d\x7d]\x7d\x7d" =
          some (.obj [("type", .str "assistant"),
            ("message", .obj [("content", .arr [.obj [("type", .str "tool_use"),
              ("name", .str "Bash"), ("id", .str "t2"),
              ("input", .obj [("command", .str "pwd")])]])])]) from rfl] at hv
      cases hv
      refine ⟨fun bc id2 hbc hid2 => ?_, fun tid2 errv2 htr2 => ?_⟩
      · rw [show extractToolUseId
            (.obj [("type", .str "assistant"),
              ("message", .obj [("content", .arr [.obj [("type", .str "tool_use"),
                ("name", .str "Bash"), ("id", .str "t2"),
                ("input", .obj [("command", .str "pwd")])]])])]) =
            Except.ok (some (JsonValue.str "t2")) from rfl] at hid2
        cases hid2
        rfl
      · rw [show extractToolResult
            (.obj [("type", .str "assistant"),
              ("message", .obj [("content", .arr [.obj [("type", .str "tool_use"),
                ("name", .str "Bash"), ("id", .str "t2"),
                ("input", .obj [("command", .str "pwd")])]])])]) =
            Except.ok none from rfl] at htr2
        cases htr2
    · rw [show jsonParse
          "\x7b\"type\":\"user\",\"message\":\x7b\"content\":[\x7b\"type\":\"tool_result\",\"tool_use_id\":\"t2\",\"is_error\":false\x7d]\x7d\x7d" =
          some (.obj [("type", .str "user"),
            ("message", .obj [("content", .arr [.obj [("type", .str "tool_result"),
              ("tool_use_id", .str "t2"), ("is_error", .bool false)]])])]) from rfl] at hv
      cases hv
      refine ⟨fun bc id2 hbc hid2 => ?_, fun tid2 errv2 htr2 => ?_⟩
      · rw [show extractBashCommand
            (.obj [("type", .str "user"),
              ("message", .obj [("content", .arr [.obj [("type", .str "tool_result"),
                ("tool_use_id", .str "t2"), ("is_error", .bool false)]])])]) =
            Except.ok none from rfl] at hbc
        cases hbc
      · rw [show extractToolResult
            (.obj [("type", .str "user"),
              ("message", .obj [("content", .arr [.obj [("type", .str "tool_result"),
                ("tool_use_id", .str "t2"), ("is_error", .bool false)]])])]) =
            Except.ok (some (JsonValue.str "t2", JsonValue.bool false)) from rfl] at htr2
        cases htr2
        rfl
  · intro hc
    exact absurd hc (by decide)
  · intro k hk hc hcl
    rw [List.length_singleton] at hk
    have hk0 : k = 0 := Nat.lt_one_iff.mp hk
    subst hk0
    exact absurd hc (by decide)
  · intro hc
    exact absurd hc (by decide)
  · intro hc
    exact absurd hc (by decide)
  · intro hc
    exact absurd hc (by decide)
  · intro k hk hc hcl
    rw [List.length_singleton] at hk
    have hk0 : k = 0 := Nat.lt_one_iff.mp hk
    subst hk0
    exact absurd hc (by decide)

/-! ## Claim C2 -/

/-- C2.  When a file's lines are exhausted, every command still in the
pending table is emitted exactly once (one emission per table entry, in
insertion order) with `success = true`, and the table is empty afterwards;
in particular a file holding one unmatched pending Bash command and no
result line yields exactly one command with `success = true`. -/
theorem c2_eof_flush (l : String) (v : JsonValue) (c : ClaudeCommand) (i : String)
    (hp : jsonParse l = some v) (hcl : lineContainsCommands l = true)
    (hb : extractBashCommand v = .ok (some c))
    (hid : extractToolUseId v = .ok (some (.str i))) :
    (∀ (st : PendingMap) (lines : List String),
      (createFileStream st lines).1 = [] ∧
      (createFileStream st lines).2.1 =
        (processLinesAux 0 st lines).2.1 ++ flushOutputs (processLinesAux 0 st lines).1 ∧
      flushOutputs (processLinesAux 0 st lines).1 =
        ((processLinesAux 0 st lines).1).map (fun p => withSuccess p.2 true) ∧
      (∀ cmd ∈ flushOutputs (processLinesAux 0 st lines).1, cmd.success = some true)) ∧
    createFileStream [] [l] = ([], [withSuccess c true], []) := by
  constructor
  · intro st lines
    rcases hpl : processLinesAux 0 st lines with ⟨st1, o, d⟩
    refine ⟨by simp [createFileStream, hpl], by simp [createFileStream, hpl], rfl, ?_⟩
    intro cmd hcmd
    rcases List.mem_map.mp hcmd with ⟨p, hp2, rfl⟩
    rfl
  · have hs1 : stepLine 1 [] l = ([(.str i, c)], [], []) := by
      rw [stepLine_classified hcl hp (by decide), pe_use hb hid]
      rfl
    simp [createFileStream, processLinesAux, hs1, flushOutputs]

/-- Witness for C2 at a concrete one-line file with an unmatched Bash
tool use. -/
theorem c2_eof_flush_witness :
    createFileStream []
      ["\x7b\"type\":\"assistant\",\"message\":\x7b\"content\":[\x7b\"type\":\"tool_use\",\"name\":\"Bash\",\"id\":\"t9\",\"input\":\x7b\"command\":\"pwd\"\x7d\x7d]\x7d\x7d"] =
      ([], [withSuccess
        { timestamp := none, command := "pwd", source := "bash", description := none,
          projectPath := none, success := none }
        true], []) :=
  (c2_eof_flush
    "\x7b\"type\":\"assistant\",\"message\":\x7b\"content\":[\x7b\"type\":\"tool_use\",\"name\":\"Bash\",\"id\":\"t9\",\"input\":\x7b\"command\":\"pwd\"\x7d\x7d]\x7d\x7d"
    (.obj [("type", .str "assistant"),
      ("message", .obj [("content", .arr [.obj [("type", .str "tool_use"),
        ("name", .str "Bash"), ("id", .str "t9"),
        ("input", .obj [("command", .str "pwd")])]])])])
    { timestamp := none, command := "pwd", source := "bash", description := none,
          projectPath := none, success := none }
    "t9" rfl rfl rfl rfl).2

/-! ## Claim C5 -/

/-- C5 is false as stated: a malformed line that the cheap line classifier
rejects (here `garbage`) is skipped before `JSON.parse` runs, so it
produces zero diagnostics, while the following well-formed pair still
resolves to exactly one command. -/
theorem c5_counterexample :
    lineContainsCommands "garbage" = false ∧
    jsonParse "garbage" = none ∧
    createFileStream []
      ["garbage",
       "\x7b\"type\":\"assistant\",\"message\":\x7b\"content\":[\x7b\"type\":\"tool_use\",\"name\":\"Bash\",\"id\":\"t1\",\"input\":\x7b\"command\":\"ls\"\x7d\x7d]\x7d\x7d",
       "\x7b\"type\":\"user\",\"message\":\x7b\"content\":[\x7b\"type\":\"tool_result\",\"tool_use_id\":\"t1\",\"is_error\":false\x7d]\x7d\x7d"] =
      ([],
       [withSuccess
        { timestamp := none, command := "ls", source := "bash", description := none,
          projectPath := none, success := none }
        true], []) :=
  ⟨rfl, rfl, rfl⟩

/-- C5 (amended).  A file whose first line is malformed but passes the
line classifier, followed by a well-formed Bash tool-use line and its
matching tool-result line, yields exactly one correctly resolved command
(`success = !is_error`) and exactly one diagnostic (for line 1); the
stream continues past the malformed line. -/
theorem c5_resilience (lbad l1 l2 : String) (e1 e2 : JsonValue) (c : ClaudeCommand)
    (i : String) (errv : JsonValue)
    (hbp : jsonParse lbad = none) (hbc : lineContainsCommands lbad = true)
    (h1 : jsonParse l1 = some e1) (h2 : jsonParse l2 = some e2)
    (hc1 : lineContainsCommands l1 = true) (hc2 : lineContainsCommands l2 = true)
    (hb : extractBashCommand e1 = .ok (some c))
    (hid : extractToolUseId e1 = .ok (some (.str i)))
    (htr : extractToolResult e2 = .ok (some (.str i, errv))) :
    createFileStream [] [lbad, l1, l2] = ([], [withSuccess c (!jsTruthy errv)], [1]) := by
  have hsb : stepLine 1 [] lbad = ([], [], [1]) := stepLine_badparse hbc hbp (by decide)
  have hs1 : stepLine 2 [] l1 = ([(.str i, c)], [], []) := by
    rw [stepLine_classified hc1 h1 (by decide), pe_use hb hid]
    rfl
  have hs2 : stepLine 3 [(.str i, c)] l2 = ([], [withSuccess c (!jsTruthy errv)], []) := by
    rw [stepLine_classified hc2 h2 (by decide), pe_result htr, mapGet_single,
      mapDelete_single]
    rfl
  simp [createFileStream, processLinesAux, hsb, hs1, hs2, flushOutputs]

/-- Witness for C5 (amended): the malformed first line contains the
`"Bash"` marker, so it reaches `JSON.parse`, fails, and is reported. -/
theorem c5_resilience_witness :
    createFileStream []
      ["\x7b\"Bash\"",
       "\x7b\"type\":\"assistant\",\"message\":\x7b\"content\":[\x7b\"type\":\"tool_use\",\"name\":\"Bash\",\"id\":\"t1\",\"input\":\x7b\"command\":\"ls\"\x7d\x7d]\x7d\x7d",
       "\x7b\"type\":\"user\",\"message\":\x7b\"content\":[\x7b\"type\":\"tool_result\",\"tool_use_id\":\"t1\",\"is_error\":false\x7d]\x7d\x7d"] =
      ([],
       [withSuccess
        { timestamp := none, command := "ls", source := "bash", description := none,
          projectPath := none, success := none }
        (!jsTruthy (.bool false))], [1]) :=
  c5_resilience
    "\x7b\"Bash\""
    "\x7b\"type\":\"assistant\",\"message\":\x7b\"content\":[\x7b\"type\":\"tool_use\",\"name\":\"Bash\",\"id\":\"t1\",\"input\":\x7b\"command\":\"ls\"\x7d\x7d]\x7d\x7d"
    "\x7b\"type\":\"user\",\"message\":\x7b\"content\":[\x7b\"type\":\"tool_result\",\"tool_use_id\":\"t1\",\"is_error\":false\x7d]\x7d\x7d"
    (.obj [("type", .str "assistant"),
      ("message", .obj [("content", .arr [.obj [("type", .str "tool_use"),
        ("name", .str "Bash"), ("id", .str "t1"),
        ("input", .obj [("command", .str "ls")])]])])])
    (.obj [("type", .str "user"),
      ("message", .obj [("content", .arr [.obj [("type", .str "tool_result"),
        ("tool_use_id", .str "t1"), ("is_error", .bool false)]])])])
    { timestamp := none, command := "ls", source := "bash", description := none,
      projectPath := none, success := none }
    "t1" (.bool false) rfl rfl rfl rfl rfl rfl rfl rfl rfl

/-! ## Claim C6 -/

/-- C6.  An assistant entry from which a Bash command is extracted but
whose tool-use identifier is absent is emitted by `processEntry` itself
(no later line needed) with `success = true`, and the pending table is
left exactly as it was. -/
theorem c6_no_id_immediate (v : JsonValue) (c : ClaudeCommand)
    (hb : extractBashCommand v = .ok (some c))
    (hid : extractToolUseId v = .ok none) :
    ∀ st : PendingMap,
      processEntryParsed st v = (st, [withSuccess c true], false) ∧
      (withSuccess c true).success = some true :=
  fun st => ⟨pe_use_noid hb hid, rfl⟩

/-- Witness for C6 at a concrete id-less Bash tool-use entry. -/
theorem c6_no_id_immediate_witness :
    processEntryParsed []
      (.obj [("type", .str "assistant"),
        ("message", .obj [("content", .arr [.obj [("type", .str "tool_use"),
          ("name", .str "Bash"),
          ("input", .obj [("command", .str "ls")])]])])]) =
      ([],
       [withSuccess
        { timestamp := none, command := "ls", source := "bash", description := none,
          projectPath := none, success := none }
        true], false) ∧
    (withSuccess
      { timestamp := none, command := "ls", source := "bash", description := none,
        projectPath := none, success := none }
      true).success = some true :=
  c6_no_id_immediate
    (.obj [("type", .str "assistant"),
      ("message", .obj [("content", .arr [.obj [("type", .str "tool_use"),
        ("name", .str "Bash"),
        ("input", .obj [("command", .str "ls")])]])])])
    { timestamp := none, command := "ls", source := "bash", description := none,
      projectPath := none, success := none }
    rfl rfl []

/-! ## Claim C7 -/

/-- C7 is false as stated: a user entry whose plain-text content contains
the `<bash-input>…</bash-input>` tag with whitespace-only inner text
matches the pattern, but the trimmed command is the empty string, which is
falsy, so nothing at all is emitted. -/
theorem c7_counterexample :
    accessProp (.obj [("type", .str "user"),
        ("message", .obj [("content", .str "<bash-input> </bash-input>")])]) "type" =
      some (.str "user") ∧
    contentOf (.obj [("type", .str "user"),
        ("message", .obj [("content", .str "<bash-input> </bash-input>")])]) =
      some (.str "<bash-input> </bash-input>") ∧
    hasSub openTag "<bash-input> </bash-input>".data = true ∧
    hasSub closeTag "<bash-input> </bash-input>".data = true ∧
    findUserCommand "<bash-input> </bash-input>" = some "" ∧
    extractUserCommand (.obj [("type", .str "user"),
        ("message", .obj [("content", .str "<bash-input> </bash-input>")])]) = .ok none ∧
    processEntryParsed [] (.obj [("type", .str "user"),
        ("message", .obj [("content", .str "<bash-input> </bash-input>")])]) =
      ([], [], false) :=
  ⟨rfl, rfl, by decide, by decide, rfl, rfl, rfl⟩

theorem extractUserCommand_eval {v : JsonValue} {s cmd : String}
    (hnn : isNullV v = false)
    (hty : accessProp v "type" = some (.str "user"))
    (hct : contentOf v = some (.str s))
    (hstru : jsTruthy (.str s) = true)
    (hf : findUserCommand s = some cmd)
    (hne : cmd ≠ "") :
    extractUserCommand v =
      .ok (createClaudeCommand (.obj [("input", .obj [("command", .str cmd)])]) v "user") := by
  rw [extractUserCommand, hnn, hty]
  simp only [Bool.false_eq_true, if_false]
  rw [hct]
  simp only [hstru, Bool.true_eq_false, if_false]
  rw [hf]
  simp only
  rw [if_neg hne]

/-- C7 (amended).  For every user entry whose plain-text content matches
the bash-input tag pattern with a non-empty trimmed inner text, a command
is emitted immediately by `processEntry` with `success = true`
unconditionally, leaving the pending table untouched; user-typed commands
are never emitted with `success = false`.  (For a tag with whitespace-only
inner text nothing is emitted — see the counterexample.) -/
theorem c7_user_command (v : JsonValue) (s : String) (cmd : String)
    (hty : accessProp v "type" = some (.str "user"))
    (hct : contentOf v = some (.str s))
    (hf : findUserCommand s = some cmd)
    (hne : cmd ≠ "") :
    ∃ cc, createClaudeCommand (.obj [("input", .obj [("command", .str cmd)])]) v "user" =
        some cc ∧
      ∀ st : PendingMap,
        processEntryParsed st v = (st, [withSuccess cc true], false) ∧
        (withSuccess cc true).success = some true := by
  have hnn := accessProp_not_null hty
  have htru : jsTruthy (.str cmd) = true := by
    simp [jsTruthy]
    exact hne
  have hstru : jsTruthy (.str s) = true := by
    by_cases hs0 : s = ""
    · subst hs0
      rw [show findUserCommand "" = none from rfl] at hf
      cases hf
    · simp [jsTruthy]
      exact hs0
  have he : ((accessProp (.obj [("input", .obj [("command", .str cmd)])]) "input").bind
      fun i => accessProp i "command") = some (.str cmd) := rfl
  have hcc : createClaudeCommand (.obj [("input", .obj [("command", .str cmd)])]) v "user" =
      some { timestamp :=
               (fun t => if truthyOpt t then t else none) (accessProp v "timestamp"),
             command := normalizeBashCommand cmd,
             source := "user",
             description := none,
             projectPath := accessProp v "cwd",
             success := none } := by
    rw [createClaudeCommand, he]
    simp only [htru, Bool.true_eq_false, if_false]
    rfl
  refine ⟨_, hcc, fun st => ⟨?_, rfl⟩⟩
  have huc := extractUserCommand_eval hnn hty hct hstru hf hne
  rw [hcc] at huc
  exact pe_user huc

/-- Witness for C7 (amended) at a concrete user bash-input entry. -/
theorem c7_user_command_witness :
    ∃ cc, createClaudeCommand
        (.obj [("input", .obj [("command", .str "git status")])])
        (.obj [("type", .str "user"),
          ("message", .obj [("content", .str "run <bash-input> git status </bash-input>")])])
        "user" = some cc ∧
      ∀ st : PendingMap,
        processEntryParsed st
          (.obj [("type", .str "user"),
            ("message", .obj [("content", .str "run <bash-input> git status </bash-input>")])]) =
          (st, [withSuccess cc true], false) ∧
        (withSuccess cc true).success = some true :=
  c7_user_command
    (.obj [("type", .str "user"),
      ("message", .obj [("content", .str "run <bash-input> git status </bash-input>")])])
    "run <bash-input> git status </bash-input>" "git status" rfl rfl rfl (by decide)

/-! ## Claim C9 -/

/-- C9.  For a project directory holding two log files `A` and `B` (in
either directory order) where `A` has the older last-modified time and
each file's stream yields exactly one command, the project stream emits
`A`'s command before `B`'s: files are sorted by last-modified time
ascending and their per-file streams are concatenated in that order. -/
theorem c9_chronological (A B : LogFile) (a b : ClaudeCommand) (da db : List Nat)
    (files : List LogFile) (hf : files = [A, B] ∨ files = [B, A])
    (hA : jsEndsWith A.name ".jsonl" = true) (hB : jsEndsWith B.name ".jsonl" = true)
    (hm : A.mtime < B.mtime)
    (ha : createFileStream [] A.lines = ([], [a], da))
    (hb : createFileStream [] B.lines = ([], [b], db)) :
    (createProjectStream files).1 = [a, b] := by
  have hle : A.mtime ≤ B.mtime := Int.le_of_lt hm
  have hnm : ¬ B.mtime ≤ A.mtime := Int.not_le.mpr hm
  have hsort : sortByMtime (files.filter fun f => jsEndsWith f.name ".jsonl") = [A, B] := by
    rcases hf with rfl | rfl
    · simp only [List.filter, hA, hB, sortByMtime, insertByMtime, hle, if_pos]
    · simp only [List.filter, hA, hB, sortByMtime, insertByMtime]
      rw [if_neg hnm]
  rw [createProjectStream, hsort]
  simp [ha, hb]

/-- Witness for C9: two one-command files with mtimes 1 and 2, listed in
reverse order in the directory. -/
theorem c9_chronological_witness :
    (createProjectStream
      [⟨"b.jsonl", 2,
        ["\x7b\"type\":\"assistant\",\"message\":\x7b\"content\":[\x7b\"type\":\"tool_use\",\"name\":\"Bash\",\"id\":\"t2\",\"input\":\x7b\"command\":\"pwd\"\x7d\x7d]\x7d\x7d"]⟩,
       ⟨"a.jsonl", 1,
        ["\x7b\"type\":\"assistant\",\"message\":\x7b\"content\":[\x7b\"type\":\"tool_use\",\"name\":\"Bash\",\"id\":\"t1\",\"input\":\x7b\"command\":\"ls\"\x7d\x7d]\x7d\x7d"]⟩]).1 =
    [withSuccess
      { timestamp := none, command := "ls", source := "bash", description := none,
        projectPath := none, success := none }
      true,
     withSuccess
      { timestamp := none, command := "pwd", source := "bash", description := none,
        projectPath := none, success := none }
      true] :=
  c9_chronological
    ⟨"a.jsonl", 1,
      ["\x7b\"type\":\"assistant\",\"message\":\x7b\"content\":[\x7b\"type\":\"tool_use\",\"name\":\"Bash\",\"id\":\"t1\",\"input\":\x7b\"command\":\"ls\"\x7d\x7d]\x7d\x7d"]⟩
    ⟨"b.jsonl", 2,
      ["\x7b\"type\":\"assistant\",\"message\":\x7b\"content\":[\x7b\"type\":\"tool_use\",\"name\":\"Bash\",\"id\":\"t2\",\"input\":\x7b\"command\":\"pwd\"\x7d\x7d]\x7d\x7d"]⟩
    (withSuccess
      { timestamp := none, command := "ls", source := "bash", description := none,
        projectPath := none, success := none }
      true)
    (withSuccess
      { timestamp := none, command := "pwd", source := "bash", description := none,
        projectPath := none, success := none }
      true)
    [] [] _ (Or.inr rfl) rfl rfl (by decide) rfl rfl

/-! ## Claim C10 -/

theorem stepLine_keys_truthy {count : Nat} {st : PendingMap} {line : String}
    (h : ∀ p ∈ st, jsTruthy p.1 = true) :
    ∀ p ∈ (stepLine count st line).1, jsTruthy p.1 = true := by
  rw [stepLine]
  split
  · exact h
  · split
    · exact h
    · rcases hpe : processEntry st line with ⟨st1, o1, bad⟩
      have h1 : ∀ p ∈ st1, jsTruthy p.1 = true := by
        rw [processEntry] at hpe
        rcases hp : jsonParse line with _ | v
        · rw [hp] at hpe
          simp only at hpe
          rcases hpe with ⟨⟩
          exact h
        · rw [hp] at hpe
          simp only at hpe
          have := pep_keys_truthy (v := v) h
          rw [hpe] at this
          exact this
      simp only [hpe]
      split
      · rw [cleanupOldPendingCommands]
        split
        · intro p hp2
          simp at hp2
        · exact h1
      · exact h1

theorem processLinesAux_keys_truthy (lines : List String) : ∀ (n : Nat) (st : PendingMap),
    (∀ p ∈ st, jsTruthy p.1 = true) →
    ∀ p ∈ (processLinesAux n st lines).1, jsTruthy p.1 = true := by
  induction lines with
  | nil => intro n st h; exact h
  | cons l ls ih =>
    intro n st h
    rw [processLinesAux]
    rcases hsl : stepLine (n + 1) st l with ⟨st1, o1, d1⟩
    have h1 : ∀ p ∈ st1, jsTruthy p.1 = true := by
      have := @stepLine_keys_truthy (n + 1) st l h
      rw [hsl] at this
      exact this
    simpa using ih (n + 1) st1 h1

theorem mapGet_falsy_key {st : PendingMap}
    (h : ∀ p ∈ st, jsTruthy p.1 = true) : mapGet st (.str "") = none := by
  induction st with
  | nil => rfl
  | cons q rest ih =>
    rcases q with ⟨k, c⟩
    rw [mapGet]
    have hk : jsonEq k (.str "") = false := by
      rcases he : jsonEq k (.str "") with _ | _
      · rfl
      · rw [jsonEq_str_cases he] at h
        have := h (.str "", c) (List.mem_cons_self _ _)
        simp [jsTruthy] at this
    rw [hk]
    exact ih fun p hp => h p (List.mem_cons_of_mem _ hp)

/-- C10.  An assistant entry whose first Bash tool-use block carries an
`id` field equal to the empty string is treated as having no identifier:
the command is emitted immediately with `success = true`, the pending
table is left untouched, and — because every key ever stored in the table
is truthy — a tool result carrying the empty identifier can never match
anything. -/
theorem c10_empty_id (v : JsonValue) (c : ClaudeCommand) (blocks : List JsonValue)
    (b : JsonValue)
    (hty : accessProp v "type" = some (.str "assistant"))
    (hct : contentOf v = some (.arr blocks))
    (hfind : findBashToolBlock blocks = .ok (some b))
    (hid : accessProp b "id" = some (.str ""))
    (hb : extractBashCommand v = .ok (some c)) :
    extractToolUseId v = .ok none ∧
    (∀ st : PendingMap, processEntryParsed st v = (st, [withSuccess c true], false)) ∧
    (withSuccess c true).success = some true ∧
    (∀ st : PendingMap, (∀ p ∈ st, jsTruthy p.1 = true) → mapGet st (.str "") = none) ∧
    (∀ (lines : List String) (n : Nat) (st : PendingMap),
      (∀ p ∈ st, jsTruthy p.1 = true) →
      ∀ p ∈ (processLinesAux n st lines).1, jsTruthy p.1 = true) := by
  have hnn := accessProp_not_null hty
  have htuid : extractToolUseId v = .ok none := by
    rw [extractToolUseId, hnn, hty]
    simp only [Bool.false_eq_true, if_false]
    rw [hct]
    simp only
    rw [hfind]
    simp only
    rw [hid]
    rfl
  exact ⟨htuid, fun st => pe_use_noid hb htuid, rfl,
    fun st h => mapGet_falsy_key h,
    fun lines n st h => processLinesAux_keys_truthy lines n st h⟩

/-- Witness for C10 at a concrete entry whose Bash block has `id = ""`. -/
theorem c10_empty_id_witness :
    extractToolUseId (.obj [("type", .str "assistant"),
      ("message", .obj [("content", .arr [.obj [("type", .str "tool_use"),
        ("name", .str "Bash"), ("id", .str ""),
        ("input", .obj [("command", .str "ls")])]])])]) = .ok none ∧
    processEntryParsed [] (.obj [("type", .str "assistant"),
      ("message", .obj [("content", .arr [.obj [("type", .str "tool_use"),
        ("name", .str "Bash"), ("id", .str ""),
        ("input", .obj [("command", .str "ls")])]])])]) =
      ([],
       [withSuccess
        { timestamp := none, command := "ls", source := "bash", description := none,
          projectPath := none, success := none }
        true], false) := by
  have h := c10_empty_id
    (.obj [("type", .str "assistant"),
      ("message", .obj [("content", .arr [.obj [("type", .str "tool_use"),
        ("name", .str "Bash"), ("id", .str ""),
        ("input", .obj [("command", .str "ls")])]])])])
    { timestamp := none, command := "ls", source := "bash", description := none,
      projectPath := none, success := none }
    [.obj [("type", .str "tool_use"), ("name", .str "Bash"), ("id", .str ""),
      ("input", .obj [("command", .str "ls")])]]
    (.obj [("type", .str "tool_use"), ("name", .str "Bash"), ("id", .str ""),
      ("input", .obj [("command", .str "ls")])])
    rfl rfl rfl rfl rfl
  exact ⟨h.1, h.2.1 []⟩
